import Mathlib

/-!
Shallow embedding of the reconciliation engine of the dynamic quote
generator (server-sync revision): the merge pass `syncWithServer`, the
fetch fallback `fetchServerQuotes` with its simulated server, the push
phase over `postQuoteToServer` outcomes, the conflict registry
`pendingConflicts` with its manual resolution actions, and the
JSON import handler of `createJSONControls`.

Timestamps are modelled as `Nat` (the value of `new Date(x).getTime()`);
ids as `String` (the code keys both maps by `String(q.id)`); the remote
push outcome as a boolean-valued function of the record, standing for
the `ok` field of the `postQuoteToServer` result.  The JavaScript `Map`
(string-keyed, insertion ordered, `set` on an existing key updating the
value in place) is modelled as an association list with exactly those
semantics.
-/

namespace QuoteSync

/-- A local quote record, the shape every stored quote is normalized to:
`{ id, text, category, lastModified (ISO), pendingSync }`. -/
structure LocalQuote where
  id : String
  text : String
  category : String
  lastModified : Nat
  pendingSync : Bool
deriving DecidableEq, Repr

/-- A record of the remote snapshot handed to the merge:
`{ id, text, category, lastModified }`, where `lastModified` may be
absent (the merge code guards every read with a fallback). -/
structure ServerQuote where
  id : String
  text : String
  category : String
  lastModified : Option Nat
deriving DecidableEq, Repr

/-- The server-side snapshot captured inside a conflict entry:
`{...serverItem, id: sid, lastModified: serverItem.lastModified || nowISO()}`. -/
structure ServerSnap where
  id : String
  text : String
  category : String
  lastModified : Nat
deriving DecidableEq, Repr

/-- A conflict registry entry `{ id, local, server }` as pushed by the
merge loop of `syncWithServer`. -/
structure ConflictEntry where
  id : String
  localSnap : LocalQuote
  serverSnap : ServerSnap
deriving DecidableEq, Repr

/-- First-match lookup in a string-keyed association list; agrees with
JavaScript `Map.get` because every map built below has distinct keys. -/
def mapGet {α : Type} : List (String × α) → String → Option α
  | [], _ => none
  | (k', v) :: rest, k => if k' = k then some v else mapGet rest k

/-- JavaScript `Map.set`: update the value in place when the key exists,
append a fresh entry otherwise. -/
def mapSet {α : Type} : List (String × α) → String → α → List (String × α)
  | [], k, v => [(k, v)]
  | (k', v') :: rest, k, v =>
      if k' = k then (k, v) :: rest else (k', v') :: mapSet rest k v

/-- The key list of an association map. -/
def mapKeys {α : Type} (m : List (String × α)) : List String := m.map Prod.fst

/-- The effect of `new Map(entries)`: insert the entries in order into an empty map. -/
def buildMap {α : Type} (entries : List (String × α)) : List (String × α) :=
  entries.foldl (fun m e => mapSet m e.1 e.2) []

/-- The map built by `new Map(quotes.map(q => [String(q.id), q]))`. -/
def buildLocalMap (localQuotes : List LocalQuote) : List (String × LocalQuote) :=
  buildMap (localQuotes.map fun q => (q.id, q))

/-- The map built by `new Map(serverQuotes.map(s => [String(s.id), s]))`. -/
def buildServerMap (serverQuotes : List ServerQuote) : List (String × ServerQuote) :=
  buildMap (serverQuotes.map fun s => (s.id, s))

/-- The constant `SERVER_WINS_BY_DEFAULT = true` — default conflict policy. -/
def SERVER_WINS_BY_DEFAULT : Bool := true

/-- The test `localLM !== serverLM && localItem.text !== serverItem.text`, with
`serverLM = serverItem.lastModified ? getTime(...) : Date.now()`. -/
def hasConflict (l : LocalQuote) (s : ServerQuote) (now : Nat) : Bool :=
  (l.lastModified != s.lastModified.getD now) && (l.text != s.text)

/-- The record written when the server wins (also the shape pushed onto
`newLocal` for a server-only id): server text/category, the server
timestamp with a now-fallback, and `pendingSync: false`. -/
def serverWinsRecord (sid : String) (s : ServerQuote) (now : Nat) : LocalQuote :=
  { id := sid, text := s.text, category := s.category
    lastModified := s.lastModified.getD now, pendingSync := false }

/-- The server snapshot stored in a conflict entry. -/
def toServerSnap (sid : String) (s : ServerQuote) (now : Nat) : ServerSnap :=
  { id := sid, text := s.text, category := s.category
    lastModified := s.lastModified.getD now }

/-- The mutable state threaded through the merge loop of
`syncWithServer`: the local map plus the `newLocal` and `conflicts`
accumulators. -/
structure MergeAcc where
  localMap : List (String × LocalQuote)
  newLocal : List LocalQuote
  conflicts : List ConflictEntry
deriving Repr

/-- One iteration of `for (const [sid, serverItem] of serverMap)` in
`syncWithServer`: a server-only id is queued on `newLocal`; an id
present on both sides is compared, and on divergence a conflict entry is
recorded and (under the default policy) the local map entry is
overwritten with the server values. -/
def mergeStep (now : Nat) (acc : MergeAcc) (e : String × ServerQuote) : MergeAcc :=
  match mapGet acc.localMap e.1 with
  | none =>
      { acc with newLocal := acc.newLocal ++ [serverWinsRecord e.1 e.2 now] }
  | some localItem =>
      if hasConflict localItem e.2 now then
        let acc' := { acc with
          conflicts := acc.conflicts ++ [⟨e.1, localItem, toServerSnap e.1 e.2 now⟩] }
        if SERVER_WINS_BY_DEFAULT then
          { acc' with localMap := mapSet acc'.localMap e.1 (serverWinsRecord e.1 e.2 now) }
        else acc'
      else acc

/-- The whole merge loop: fold `mergeStep` over the server map starting
from the freshly built local map. -/
def mergeQuotes (localQuotes : List LocalQuote) (serverQuotes : List ServerQuote)
    (now : Nat) : MergeAcc :=
  (buildServerMap serverQuotes).foldl (mergeStep now)
    ⟨buildLocalMap localQuotes, [], []⟩

/-- The loop `for (const item of newLocal) localMap.set(String(item.id), item)`. -/
def insertAll (m : List (String × LocalQuote)) (items : List LocalQuote) :
    List (String × LocalQuote) :=
  items.foldl (fun m' item => mapSet m' item.id item) m

/-- The value `Array.from(localMap.values())` after the server-only items were
inserted: the merged store committed by the pass. -/
def mergedStore (localQuotes : List LocalQuote) (serverQuotes : List ServerQuote)
    (now : Nat) : List LocalQuote :=
  let acc := mergeQuotes localQuotes serverQuotes now
  (insertAll acc.localMap acc.newLocal).map Prod.snd

/-- The predicate `l.pendingSync === true || !serverMap.has(String(l.id))` — the filter
selecting `pendingToPost`. -/
def isPushCandidate (serverMap : List (String × ServerQuote)) (l : LocalQuote) : Bool :=
  l.pendingSync || !(mapGet serverMap l.id).isSome

/-- The list `merged.filter(...)`: the `pendingToPost` list of the pass. -/
def pendingToPost (serverQuotes : List ServerQuote) (merged : List LocalQuote) :
    List LocalQuote :=
  merged.filter (isPushCandidate (buildServerMap serverQuotes))

/-- The sequential push loop: each element of `pendingToPost` (a shared
reference into `merged`) has `pendingSync` set to `false` on a
successful `postQuoteToServer` and to `true` on a failed one, and the
loop always continues to the next candidate. -/
def applyPush (pushOk : LocalQuote → Bool) (serverMap : List (String × ServerQuote)) :
    List LocalQuote → List LocalQuote
  | [] => []
  | l :: ls =>
      (if isPushCandidate serverMap l then { l with pendingSync := !pushOk l } else l)
        :: applyPush pushOk serverMap ls

/-- The observable outcome of one `syncWithServer` pass: the committed
store, the conflicts detected by this pass, the conflict registry
(`pendingConflicts`) after the pass, the count of records added from the
server, and the push-candidate list. -/
structure SyncResult where
  quotes : List LocalQuote
  conflicts : List ConflictEntry
  registry : List ConflictEntry
  added : Nat
  candidates : List LocalQuote
deriving Repr

/-- One merge pass of `syncWithServer`, given the fetched server
snapshot: build both maps, fold the merge loop, insert the server-only
records, push the candidates sequentially, commit the merged store, and
replace `pendingConflicts` with the new conflicts exactly when at least
one conflict was detected. -/
def syncWithServer (localQuotes : List LocalQuote) (serverQuotes : List ServerQuote)
    (registryBefore : List ConflictEntry) (pushOk : LocalQuote → Bool) (now : Nat) :
    SyncResult :=
  let serverMap := buildServerMap serverQuotes
  let acc := mergeQuotes localQuotes serverQuotes now
  let merged := (insertAll acc.localMap acc.newLocal).map Prod.snd
  { quotes := applyPush pushOk serverMap merged
    conflicts := acc.conflicts
    registry := if acc.conflicts.length > 0 then acc.conflicts else registryBefore
    added := acc.newLocal.length
    candidates := merged.filter (isPushCandidate serverMap) }

/-- The server-model image of a local quote, as seeded by
`simulatedServer.initFromLocal`. -/
def toServerQuote (q : LocalQuote) : ServerQuote :=
  { id := q.id, text := q.text, category := q.category
    lastModified := some q.lastModified }

/-- The seeding step `simulatedServer.initFromLocal`: seed the simulated store from the
local quotes when it is empty, otherwise leave it alone. -/
def initFromLocal (store : List ServerQuote) (localQuotes : List LocalQuote) :
    List ServerQuote :=
  if store.isEmpty then localQuotes.map toServerQuote else store

/-- The fetch helper `fetchServerQuotes`: on a successful remote fetch return the mapped
remote data; on a failed fetch fall back to the simulated server,
seeding it from the local quotes if it is empty.  Returns the snapshot
handed to the merge together with the simulated store afterwards. -/
def fetchServerQuotes (real : Option (List ServerQuote))
    (localQuotes : List LocalQuote) (simStore : List ServerQuote) :
    List ServerQuote × List ServerQuote :=
  match real with
  | some mapped => (mapped, simStore)
  | none =>
      let store := initFromLocal simStore localQuotes
      (store, store)

/-- A full pass including the fetch step: fetch (with fallback), then
merge and push.  `real = none` models a failed remote fetch. -/
def syncPass (real : Option (List ServerQuote)) (simStore : List ServerQuote)
    (localQuotes : List LocalQuote) (registryBefore : List ConflictEntry)
    (pushOk : LocalQuote → Bool) (now : Nat) : SyncResult × List ServerQuote :=
  let fetched := fetchServerQuotes real localQuotes simStore
  (syncWithServer localQuotes fetched.1 registryBefore pushOk now, fetched.2)

/-- Apply `f` to the first list element satisfying `p` (the effect of
mutating through `find`/`findIndex` in the resolution handlers). -/
def updateFirst {α : Type} (p : α → Bool) (f : α → α) : List α → List α
  | [] => []
  | x :: xs => if p x then f x :: xs else x :: updateFirst p f xs

/-- The "Accept Server" handler of the conflict panel: overwrite the
matching quote's text/category/lastModified with the captured server
snapshot, clear `pendingSync`, and drop every registry entry with that
id. -/
def resolveAcceptServer (quotes : List LocalQuote) (pending : List ConflictEntry)
    (conf : ConflictEntry) : List LocalQuote × List ConflictEntry :=
  (updateFirst (fun q => q.id == conf.id)
      (fun q => { q with
          text := conf.serverSnap.text,
          category := conf.serverSnap.category,
          lastModified := conf.serverSnap.lastModified,
          pendingSync := false }) quotes,
   pending.filter (fun pc => pc.id != conf.id))

/-- The "Keep Local (Push to server)" handler: re-stamp the matching
quote's `lastModified` to now and push it; on success clear
`pendingSync` and drop the registry entry, on failure keep the entry
(the re-stamp has already happened in memory). -/
def resolveKeepLocal (quotes : List LocalQuote) (pending : List ConflictEntry)
    (conf : ConflictEntry) (pushOk : LocalQuote → Bool) (now : Nat) :
    List LocalQuote × List ConflictEntry :=
  match quotes.find? (fun q => q.id == conf.id) with
  | none => (quotes, pending)
  | some q =>
      let restamped := { q with lastModified := now }
      if pushOk restamped then
        (updateFirst (fun x => x.id == conf.id)
            (fun _ => { restamped with pendingSync := false }) quotes,
         pending.filter (fun pc => pc.id != conf.id))
      else
        (updateFirst (fun x => x.id == conf.id) (fun _ => restamped) quotes,
         pending)

/-- An element of an imported JSON array, before normalization: every
expected field may be absent. -/
structure RawImport where
  id : Option String
  text : Option String
  category : Option String
  lastModified : Option Nat
deriving DecidableEq, Repr

/-- The shape of a parsed top-level JSON value, as far as the import
handler inspects it: an array of raw quote objects, or any non-array
value. -/
inductive JsonValue where
  | jArray (items : List RawImport)
  | jObject (fields : List (String × String))
  | jString (s : String)
  | jNumber (n : Int)
  | jBool (b : Bool)
  | jNull
deriving DecidableEq, Repr

/-- The test `Array.isArray(importedQuotes)`. -/
def isArray : JsonValue → Bool
  | .jArray _ => true
  | _ => false

/-- The outcome surfaced by the import handler: the success message with
its count, or the invalid-format rejection. -/
inductive ImportResult where
  | success (count : Nat)
  | invalidFormat
deriving DecidableEq, Repr

/-- The import handler of `createJSONControls`: an array is normalized
(missing ids drawn from the uid generator, missing text defaulted to
`""`, missing category to `"Uncategorized"`, missing `lastModified` to
now, `pendingSync` cleared) and replaces the store; any non-array value
is rejected and the store is left untouched. -/
def importQuotesFromJSON (v : JsonValue) (quotes : List LocalQuote)
    (fresh : Nat → String) (now : Nat) : List LocalQuote × ImportResult :=
  match v with
  | .jArray items =>
      let normalized := items.mapIdx (fun i q =>
        { id := q.id.getD (fresh i), text := q.text.getD ""
          category := q.category.getD "Uncategorized"
          lastModified := q.lastModified.getD now
          pendingSync := false : LocalQuote })
      (normalized, .success normalized.length)
  | _ => (quotes, .invalidFormat)

end QuoteSync

namespace QuoteSync

/-! ### Observers and helper predicates used by the statements -/

/-- The stored record for an id: first (hence, in a duplicate-free
store, the unique) record whose `id` matches. -/
def storeGet (l : List LocalQuote) (k : String) : Option LocalQuote :=
  mapGet (l.map fun q => (q.id, q)) k

/-- The conflict entry, if any, that one merge-loop iteration over `e`
produces when the local map is `m`. -/
def conflictOf (m : List (String × LocalQuote)) (now : Nat)
    (e : String × ServerQuote) : Option ConflictEntry :=
  match mapGet m e.1 with
  | none => none
  | some l =>
      if hasConflict l e.2 now then some ⟨e.1, l, toServerSnap e.1 e.2 now⟩ else none

/-- The `newLocal` record, if any, that one merge-loop iteration over
`e` produces when the local map is `m`. -/
def addedOf (m : List (String × LocalQuote)) (now : Nat)
    (e : String × ServerQuote) : Option LocalQuote :=
  match mapGet m e.1 with
  | none => some (serverWinsRecord e.1 e.2 now)
  | some _ => none

/-- Every entry of the map stores a record whose `id` equals its key. -/
def IdKeyed (m : List (String × LocalQuote)) : Prop :=
  ∀ p ∈ m, (Prod.snd p).id = p.1


/-! ### Association-map lemmas -/

@[simp] theorem mapKeys_nil {α : Type} : mapKeys ([] : List (String × α)) = [] := rfl

@[simp] theorem mapKeys_cons {α : Type} (p : String × α) (m : List (String × α)) :
    mapKeys (p :: m) = p.1 :: mapKeys m := rfl

theorem mapGet_mapSet_self {α : Type} (m : List (String × α)) (k : String) (v : α) :
    mapGet (mapSet m k v) k = some v := by
  induction m with
  | nil => simp [mapSet, mapGet]
  | cons p rest ih =>
      obtain ⟨k', v'⟩ := p
      by_cases h : k' = k
      · simp [mapSet, h, mapGet]
      · simp [mapSet, h, mapGet, ih]

theorem mapGet_mapSet_ne {α : Type} (m : List (String × α)) (k k' : String) (v : α)
    (h : k' ≠ k) : mapGet (mapSet m k v) k' = mapGet m k' := by
  induction m with
  | nil => simp [mapSet, mapGet, Ne.symm h]
  | cons p rest ih =>
      obtain ⟨k₀, v₀⟩ := p
      by_cases h0 : k₀ = k
      · subst h0
        simp [mapSet, mapGet, Ne.symm h]
      · simp [mapSet, h0, mapGet, ih]

theorem mapKeys_mapSet_mem {α : Type} (m : List (String × α)) (k : String) (v : α)
    (h : k ∈ mapKeys m) : mapKeys (mapSet m k v) = mapKeys m := by
  induction m with
  | nil => simp at h
  | cons p rest ih =>
      obtain ⟨k₀, v₀⟩ := p
      rw [mapKeys_cons] at h
      by_cases h0 : k₀ = k
      · simp only [mapSet, if_pos h0, mapKeys_cons]
        rw [h0]
      · have h' : k ∈ mapKeys rest := by
          rcases List.mem_cons.mp h with h1 | h1
          · exact absurd h1.symm h0
          · exact h1
        simp only [mapSet, if_neg h0, mapKeys_cons, ih h']

theorem mapKeys_mapSet_not_mem {α : Type} (m : List (String × α)) (k : String) (v : α)
    (h : k ∉ mapKeys m) : mapKeys (mapSet m k v) = mapKeys m ++ [k] := by
  induction m with
  | nil => simp [mapSet]
  | cons p rest ih =>
      obtain ⟨k₀, v₀⟩ := p
      rw [mapKeys_cons] at h
      have h1 : k ≠ k₀ := fun hc => h (hc ▸ List.mem_cons_self _ _)
      have h2 : k ∉ mapKeys rest := fun hc => h (List.mem_cons_of_mem _ hc)
      simp only [mapSet, if_neg (Ne.symm h1), mapKeys_cons, ih h2, List.cons_append]

theorem nodup_mapKeys_mapSet {α : Type} (m : List (String × α)) (k : String) (v : α)
    (h : (mapKeys m).Nodup) : (mapKeys (mapSet m k v)).Nodup := by
  by_cases hk : k ∈ mapKeys m
  · rw [mapKeys_mapSet_mem m k v hk]; exact h
  · rw [mapKeys_mapSet_not_mem m k v hk]
    simpa [List.nodup_append] using ⟨h, hk⟩

theorem mapSet_fresh {α : Type} (m : List (String × α)) (k : String) (v : α)
    (h : k ∉ mapKeys m) : mapSet m k v = m ++ [(k, v)] := by
  induction m with
  | nil => simp [mapSet]
  | cons p rest ih =>
      obtain ⟨k₀, v₀⟩ := p
      rw [mapKeys_cons] at h
      have h1 : k ≠ k₀ := fun hc => h (hc ▸ List.mem_cons_self _ _)
      have h2 : k ∉ mapKeys rest := fun hc => h (List.mem_cons_of_mem _ hc)
      simp only [mapSet, if_neg (Ne.symm h1), ih h2, List.cons_append]

theorem mapGet_isSome_iff {α : Type} (m : List (String × α)) (k : String) :
    (mapGet m k).isSome ↔ k ∈ mapKeys m := by
  induction m with
  | nil => simp [mapGet]
  | cons p rest ih =>
      obtain ⟨k₀, v₀⟩ := p
      by_cases h0 : k₀ = k
      · subst h0
        simp [mapGet]
      · have h0' : ¬ k = k₀ := fun hc => h0 hc.symm
        simp [mapGet, h0, ih, h0']

theorem mapGet_eq_none_of_not_mem {α : Type} (m : List (String × α)) (k : String)
    (h : k ∉ mapKeys m) : mapGet m k = none := by
  cases hm : mapGet m k with
  | none => rfl
  | some v => exact absurd ((mapGet_isSome_iff m k).mp (by simp [hm])) h

theorem not_mem_mapKeys_of_get_none {α : Type} (m : List (String × α)) (k : String)
    (h : mapGet m k = none) : k ∉ mapKeys m := by
  intro hk
  have := (mapGet_isSome_iff m k).mpr hk
  simp [h] at this

theorem mapGet_append_some {α : Type} (a b : List (String × α)) (k : String) (v : α)
    (h : mapGet a k = some v) : mapGet (a ++ b) k = some v := by
  induction a with
  | nil => simp [mapGet] at h
  | cons p rest ih =>
      obtain ⟨k₀, v₀⟩ := p
      by_cases h0 : k₀ = k
      · simp [mapGet, h0] at h ⊢; exact h
      · simp [mapGet, h0] at h ⊢; exact ih h

theorem mapGet_append_none {α : Type} (a b : List (String × α)) (k : String)
    (h : mapGet a k = none) : mapGet (a ++ b) k = mapGet b k := by
  induction a with
  | nil => simp [mapGet]
  | cons p rest ih =>
      obtain ⟨k₀, v₀⟩ := p
      by_cases h0 : k₀ = k
      · simp [mapGet, h0] at h
      · simp [mapGet, h0] at h ⊢; exact ih h

theorem mem_mapSet_ne {α : Type} (m : List (String × α)) (k k₀ : String) (v v₀ : α)
    (hmem : (k₀, v₀) ∈ m) (hne : k₀ ≠ k) : (k₀, v₀) ∈ mapSet m k v := by
  induction m with
  | nil => simp at hmem
  | cons p rest ih =>
      obtain ⟨k₁, v₁⟩ := p
      rcases List.mem_cons.mp hmem with h | h
      · have hk : k₀ = k₁ := congrArg Prod.fst h
        have h1 : ¬ k₁ = k := fun hc => hne (hk.trans hc)
        simp only [mapSet, if_neg h1]
        exact List.mem_cons.mpr (Or.inl h)
      · by_cases h1 : k₁ = k
        · simp only [mapSet, if_pos h1]
          exact List.mem_cons.mpr (Or.inr h)
        · simp only [mapSet, if_neg h1]
          exact List.mem_cons.mpr (Or.inr (ih h))

/-! ### buildMap lemmas -/

theorem nodup_mapKeys_foldl_mapSet {α : Type} (es : List (String × α))
    (m : List (String × α)) (h : (mapKeys m).Nodup) :
    (mapKeys (es.foldl (fun m' e => mapSet m' e.1 e.2) m)).Nodup := by
  induction es generalizing m with
  | nil => simpa using h
  | cons e rest ih =>
      simp only [List.foldl_cons]
      exact ih _ (nodup_mapKeys_mapSet m e.1 e.2 h)

theorem nodup_mapKeys_buildMap {α : Type} (es : List (String × α)) :
    (mapKeys (buildMap es)).Nodup :=
  nodup_mapKeys_foldl_mapSet es [] (by simp)

theorem mem_mapKeys_mapSet_iff {α : Type} (m : List (String × α)) (k k'' : String)
    (v : α) : k'' ∈ mapKeys (mapSet m k v) ↔ k'' ∈ mapKeys m ∨ k'' = k := by
  by_cases hk : k ∈ mapKeys m
  · rw [mapKeys_mapSet_mem m k v hk]
    constructor
    · exact Or.inl
    · rintro (h | h)
      · exact h
      · exact h ▸ hk
  · rw [mapKeys_mapSet_not_mem m k v hk]
    simp [List.mem_append]

theorem mem_mapKeys_foldl_mapSet {α : Type} (es : List (String × α))
    (m : List (String × α)) (k : String) :
    k ∈ mapKeys (es.foldl (fun m' e => mapSet m' e.1 e.2) m) ↔
      k ∈ mapKeys m ∨ k ∈ mapKeys es := by
  induction es generalizing m with
  | nil => simp
  | cons e rest ih =>
      simp only [List.foldl_cons, mapKeys_cons, List.mem_cons]
      rw [ih, mem_mapKeys_mapSet_iff]
      tauto

theorem mem_mapKeys_buildMap {α : Type} (es : List (String × α)) (k : String) :
    k ∈ mapKeys (buildMap es) ↔ k ∈ mapKeys es := by
  rw [buildMap, mem_mapKeys_foldl_mapSet]
  simp

theorem foldl_mapSet_fresh {α : Type} (es : List (String × α)) (m : List (String × α))
    (hdisj : ∀ e ∈ es, e.1 ∉ mapKeys m) (hnd : (mapKeys es).Nodup) :
    es.foldl (fun m' e => mapSet m' e.1 e.2) m = m ++ es := by
  induction es generalizing m with
  | nil => simp
  | cons e rest ih =>
      simp only [List.foldl_cons]
      rw [mapKeys_cons] at hnd
      have hfresh : e.1 ∉ mapKeys m := hdisj e (List.mem_cons_self _ _)
      rw [mapSet_fresh m e.1 e.2 hfresh]
      have hd : ∀ e' ∈ rest, e'.1 ∉ mapKeys (m ++ [(e.1, e.2)]) := by
        intro e' he' hc
        have : mapKeys (m ++ [(e.1, e.2)]) = mapKeys m ++ [e.1] := by
          simp [mapKeys]
        rw [this] at hc
        rcases List.mem_append.mp hc with h1 | h1
        · exact hdisj e' (List.mem_cons_of_mem _ he') h1
        · have : e'.1 = e.1 := List.mem_singleton.mp h1
          exact (List.nodup_cons.mp hnd).1 (this ▸ (List.mem_map.mpr ⟨e', he', rfl⟩))
      rw [ih (m ++ [(e.1, e.2)]) hd (List.nodup_cons.mp hnd).2]
      simp

theorem buildMap_self {α : Type} (es : List (String × α))
    (hnd : (mapKeys es).Nodup) : buildMap es = es := by
  rw [buildMap, foldl_mapSet_fresh es [] (by simp) hnd]
  simp

/-! ### Id-keyed maps, values and storeGet -/

theorem idKeyed_mapSet (m : List (String × LocalQuote)) (k : String) (v : LocalQuote)
    (h : IdKeyed m) (hv : v.id = k) : IdKeyed (mapSet m k v) := by
  induction m with
  | nil => intro p hp; simp [mapSet] at hp; simp [hp, hv]
  | cons q rest ih =>
      obtain ⟨k₀, v₀⟩ := q
      have h0 : IdKeyed rest := fun p hp => h p (List.mem_cons_of_mem _ hp)
      by_cases hk : k₀ = k
      · intro p hp
        simp only [mapSet, if_pos hk] at hp
        rcases List.mem_cons.mp hp with h1 | h1
        · simp [h1, hv]
        · exact h p (List.mem_cons_of_mem _ h1)
      · intro p hp
        simp only [mapSet, if_neg hk] at hp
        rcases List.mem_cons.mp hp with h1 | h1
        · exact h p (h1 ▸ List.mem_cons_self _ _)
        · exact ih h0 p h1

theorem idKeyed_foldl_mapSet (items : List LocalQuote)
    (m : List (String × LocalQuote)) (h : IdKeyed m) :
    IdKeyed (items.foldl (fun m' item => mapSet m' item.id item) m) := by
  induction items generalizing m with
  | nil => exact h
  | cons i rest ih =>
      simp only [List.foldl_cons]
      exact ih _ (idKeyed_mapSet m i.id i h rfl)

theorem idKeyed_buildLocalMap (localQuotes : List LocalQuote) :
    IdKeyed (buildLocalMap localQuotes) := by
  rw [buildLocalMap, buildMap, List.foldl_map]
  exact idKeyed_foldl_mapSet localQuotes [] (fun p hp => by simp at hp)

theorem idKeyed_insertAll (m : List (String × LocalQuote)) (items : List LocalQuote)
    (h : IdKeyed m) : IdKeyed (insertAll m items) :=
  idKeyed_foldl_mapSet items m h

theorem values_map_pair (m : List (String × LocalQuote)) (h : IdKeyed m) :
    (m.map Prod.snd).map (fun q => (q.id, q)) = m := by
  induction m with
  | nil => rfl
  | cons p rest ih =>
      obtain ⟨k₀, v₀⟩ := p
      have hid : v₀.id = k₀ := h (k₀, v₀) (List.mem_cons_self _ _)
      have hrest : IdKeyed rest := fun p hp => h p (List.mem_cons_of_mem _ hp)
      simp only [List.map_cons, ih hrest, hid]

theorem ids_values_eq_mapKeys (m : List (String × LocalQuote)) (h : IdKeyed m) :
    (m.map Prod.snd).map LocalQuote.id = mapKeys m := by
  induction m with
  | nil => rfl
  | cons p rest ih =>
      obtain ⟨k₀, v₀⟩ := p
      have hid : v₀.id = k₀ := h (k₀, v₀) (List.mem_cons_self _ _)
      have hrest : IdKeyed rest := fun p hp => h p (List.mem_cons_of_mem _ hp)
      simp only [List.map_cons, mapKeys_cons, ih hrest, hid]

theorem storeGet_values (m : List (String × LocalQuote)) (h : IdKeyed m) (k : String) :
    storeGet (m.map Prod.snd) k = mapGet m k := by
  rw [storeGet, values_map_pair m h]

theorem storeGet_map_pres (f : LocalQuote → LocalQuote) (l : List LocalQuote)
    (k : String) (hf : ∀ q, (f q).id = q.id) :
    storeGet (l.map f) k = Option.map f (storeGet l k) := by
  induction l with
  | nil => rfl
  | cons q rest ih =>
      by_cases h0 : q.id = k
      · simp [storeGet, mapGet, hf, h0]
      · simp only [storeGet, List.map_cons, mapGet, hf, if_neg h0] at ih ⊢
        exact ih

theorem storeGet_mem_nodup (l : List LocalQuote) (q : LocalQuote)
    (hnd : (l.map LocalQuote.id).Nodup) (hq : q ∈ l) : storeGet l q.id = some q := by
  induction l with
  | nil => simp at hq
  | cons r rest ih =>
      simp only [List.map_cons, List.nodup_cons] at hnd
      rcases List.mem_cons.mp hq with h | h
      · simp [storeGet, mapGet, h]
      · have hne : r.id ≠ q.id := by
          intro hc
          exact hnd.1 (hc ▸ List.mem_map.mpr ⟨q, h, rfl⟩)
        simp only [storeGet, List.map_cons, mapGet, if_neg hne]
        exact ih hnd.2 h

theorem storeGet_eq_none_iff (l : List LocalQuote) (k : String) :
    storeGet l k = none ↔ ∀ q ∈ l, q.id ≠ k := by
  induction l with
  | nil => simp [storeGet, mapGet]
  | cons q rest ih =>
      by_cases h0 : q.id = k
      · simp [storeGet, mapGet, h0]
      · simp only [storeGet, List.map_cons, mapGet, if_neg h0] at ih ⊢
        rw [ih]
        constructor
        · intro hall r hr
          rcases List.mem_cons.mp hr with h | h
          · exact h ▸ h0
          · exact hall r h
        · intro hall r hr
          exact hall r (List.mem_cons_of_mem _ hr)

theorem storeGet_mem_of_some (l : List LocalQuote) (k : String) (q : LocalQuote)
    (h : storeGet l k = some q) : q ∈ l ∧ q.id = k := by
  induction l with
  | nil => simp [storeGet, mapGet] at h
  | cons r rest ih =>
      by_cases h0 : r.id = k
      · simp only [storeGet, List.map_cons, mapGet, if_pos h0] at h
        obtain rfl : r = q := by injection h
        exact ⟨List.mem_cons_self _ _, h0⟩
      · simp only [storeGet, List.map_cons, mapGet, if_neg h0] at h
        obtain ⟨hmem, hid⟩ := ih h
        exact ⟨List.mem_cons_of_mem _ hmem, hid⟩

/-! ### Merge-loop lemmas -/

theorem mergeStep_of_none (now : Nat) (acc : MergeAcc) (e : String × ServerQuote)
    (h : mapGet acc.localMap e.1 = none) :
    mergeStep now acc e =
      { acc with newLocal := acc.newLocal ++ [serverWinsRecord e.1 e.2 now] } := by
  simp [mergeStep, h]

theorem mergeStep_of_conflict (now : Nat) (acc : MergeAcc) (e : String × ServerQuote)
    (l : LocalQuote) (h : mapGet acc.localMap e.1 = some l)
    (hc : hasConflict l e.2 now = true) :
    mergeStep now acc e =
      { localMap := mapSet acc.localMap e.1 (serverWinsRecord e.1 e.2 now),
        newLocal := acc.newLocal,
        conflicts := acc.conflicts ++ [⟨e.1, l, toServerSnap e.1 e.2 now⟩] } := by
  simp [mergeStep, h, hc, SERVER_WINS_BY_DEFAULT]

theorem mergeStep_of_no_conflict (now : Nat) (acc : MergeAcc) (e : String × ServerQuote)
    (l : LocalQuote) (h : mapGet acc.localMap e.1 = some l)
    (hc : hasConflict l e.2 now = false) :
    mergeStep now acc e = acc := by
  simp [mergeStep, h, hc]

theorem mergeStep_keys (now : Nat) (acc : MergeAcc) (e : String × ServerQuote) :
    mapKeys (mergeStep now acc e).localMap = mapKeys acc.localMap := by
  cases hget : mapGet acc.localMap e.1 with
  | none => rw [mergeStep_of_none now acc e hget]
  | some l =>
      cases hc : hasConflict l e.2 now with
      | false => rw [mergeStep_of_no_conflict now acc e l hget hc]
      | true =>
          rw [mergeStep_of_conflict now acc e l hget hc]
          exact mapKeys_mapSet_mem _ _ _ ((mapGet_isSome_iff _ _).mp (by simp [hget]))

theorem mergeFold_keys (E : List (String × ServerQuote)) (now : Nat) (acc : MergeAcc) :
    mapKeys ((E.foldl (mergeStep now) acc).localMap) = mapKeys acc.localMap := by
  induction E generalizing acc with
  | nil => rfl
  | cons e rest ih =>
      simp only [List.foldl_cons]
      rw [ih, mergeStep_keys]

theorem mergeStep_get_ne (now : Nat) (acc : MergeAcc) (e : String × ServerQuote)
    (k : String) (h : k ≠ e.1) :
    mapGet (mergeStep now acc e).localMap k = mapGet acc.localMap k := by
  cases hget : mapGet acc.localMap e.1 with
  | none => rw [mergeStep_of_none now acc e hget]
  | some l =>
      cases hc : hasConflict l e.2 now with
      | false => rw [mergeStep_of_no_conflict now acc e l hget hc]
      | true =>
          rw [mergeStep_of_conflict now acc e l hget hc]
          exact mapGet_mapSet_ne _ _ _ _ h

theorem mergeStep_idKeyed (now : Nat) (acc : MergeAcc) (e : String × ServerQuote)
    (h : IdKeyed acc.localMap) : IdKeyed (mergeStep now acc e).localMap := by
  cases hget : mapGet acc.localMap e.1 with
  | none => rw [mergeStep_of_none now acc e hget]; exact h
  | some l =>
      cases hc : hasConflict l e.2 now with
      | false => rw [mergeStep_of_no_conflict now acc e l hget hc]; exact h
      | true =>
          rw [mergeStep_of_conflict now acc e l hget hc]
          exact idKeyed_mapSet _ _ _ h rfl

theorem mergeFold_idKeyed (E : List (String × ServerQuote)) (now : Nat) (acc : MergeAcc)
    (h : IdKeyed acc.localMap) : IdKeyed ((E.foldl (mergeStep now) acc).localMap) := by
  induction E generalizing acc with
  | nil => exact h
  | cons e rest ih =>
      simp only [List.foldl_cons]
      exact ih _ (mergeStep_idKeyed now acc e h)

theorem mergeFold_get_none (E : List (String × ServerQuote)) (now : Nat) (acc : MergeAcc)
    (k : String) (hl : mapGet acc.localMap k = none) :
    mapGet ((E.foldl (mergeStep now) acc).localMap) k = none := by
  induction E generalizing acc with
  | nil => exact hl
  | cons e rest ih =>
      simp only [List.foldl_cons]
      apply ih
      cases hget : mapGet acc.localMap e.1 with
      | none => rw [mergeStep_of_none now acc e hget]; exact hl
      | some l =>
          cases hc : hasConflict l e.2 now with
          | false => rw [mergeStep_of_no_conflict now acc e l hget hc]; exact hl
          | true =>
              rw [mergeStep_of_conflict now acc e l hget hc]
              have hne : k ≠ e.1 := by
                intro hk
                rw [hk, hget] at hl
                exact Option.noConfusion hl
              rw [mapGet_mapSet_ne _ _ _ _ hne]
              exact hl

theorem mergeFold_get_not_mem (E : List (String × ServerQuote)) (now : Nat)
    (acc : MergeAcc) (k : String) (hk : k ∉ mapKeys E) :
    mapGet ((E.foldl (mergeStep now) acc).localMap) k = mapGet acc.localMap k := by
  induction E generalizing acc with
  | nil => rfl
  | cons e rest ih =>
      rw [mapKeys_cons] at hk
      have h1 : k ≠ e.1 := fun hc => hk (hc ▸ List.mem_cons_self _ _)
      have h2 : k ∉ mapKeys rest := fun hc => hk (List.mem_cons_of_mem _ hc)
      simp only [List.foldl_cons]
      rw [ih _ h2, mergeStep_get_ne now acc e k h1]

theorem mergeFold_get_some (E : List (String × ServerQuote)) (now : Nat)
    (acc : MergeAcc) (k : String) (s : ServerQuote) (l : LocalQuote)
    (hnd : (mapKeys E).Nodup) (hmem : (k, s) ∈ E)
    (hl : mapGet acc.localMap k = some l) :
    mapGet ((E.foldl (mergeStep now) acc).localMap) k =
      some (if hasConflict l s now then serverWinsRecord k s now else l) := by
  induction E generalizing acc with
  | nil => simp at hmem
  | cons e rest ih =>
      rw [mapKeys_cons, List.nodup_cons] at hnd
      simp only [List.foldl_cons]
      rcases List.mem_cons.mp hmem with h | h
      · have he : e = (k, s) := h.symm
        subst he
        rw [mergeFold_get_not_mem rest now _ k hnd.1]
        cases hc : hasConflict l s now with
        | true =>
            rw [mergeStep_of_conflict now acc (k, s) l hl hc]
            simp [mapGet_mapSet_self, hc]
        | false =>
            rw [mergeStep_of_no_conflict now acc (k, s) l hl hc]
            simp [hl, hc]
      · have hkmem : k ∈ mapKeys rest := List.mem_map.mpr ⟨(k, s), h, rfl⟩
        have hne : k ≠ e.1 := fun hc => hnd.1 (hc ▸ hkmem)
        have hl' : mapGet (mergeStep now acc e).localMap k = some l := by
          rw [mergeStep_get_ne now acc e k hne]; exact hl
        exact ih _ hnd.2 h hl'

theorem mergeFold_conflicts (E : List (String × ServerQuote)) (now : Nat)
    (acc : MergeAcc) (hnd : (mapKeys E).Nodup) :
    (E.foldl (mergeStep now) acc).conflicts =
      acc.conflicts ++ E.filterMap (conflictOf acc.localMap now) := by
  induction E generalizing acc with
  | nil => simp
  | cons e rest ih =>
      rw [mapKeys_cons, List.nodup_cons] at hnd
      simp only [List.foldl_cons, List.filterMap_cons]
      cases hget : mapGet acc.localMap e.1 with
      | none =>
          rw [mergeStep_of_none now acc e hget, ih _ hnd.2]
          simp [conflictOf, hget]
      | some l =>
          cases hc : hasConflict l e.2 now with
          | false =>
              rw [mergeStep_of_no_conflict now acc e l hget hc, ih _ hnd.2]
              simp [conflictOf, hget, hc]
          | true =>
              rw [mergeStep_of_conflict now acc e l hget hc, ih _ hnd.2]
              have hcong : ∀ e' ∈ rest,
                  conflictOf (mapSet acc.localMap e.1 (serverWinsRecord e.1 e.2 now)) now e' =
                    conflictOf acc.localMap now e' := by
                intro e' he'
                have hne : e'.1 ≠ e.1 := fun hceq =>
                  hnd.1 (hceq ▸ List.mem_map.mpr ⟨e', he', rfl⟩)
                simp [conflictOf, mapGet_mapSet_ne _ _ _ _ hne]
              rw [List.filterMap_congr hcong]
              simp [conflictOf, hget, hc]

theorem mergeFold_newLocal (E : List (String × ServerQuote)) (now : Nat)
    (acc : MergeAcc) (hnd : (mapKeys E).Nodup) :
    (E.foldl (mergeStep now) acc).newLocal =
      acc.newLocal ++ E.filterMap (addedOf acc.localMap now) := by
  induction E generalizing acc with
  | nil => simp
  | cons e rest ih =>
      rw [mapKeys_cons, List.nodup_cons] at hnd
      simp only [List.foldl_cons, List.filterMap_cons]
      cases hget : mapGet acc.localMap e.1 with
      | none =>
          rw [mergeStep_of_none now acc e hget, ih _ hnd.2]
          simp [addedOf, hget]
      | some l =>
          cases hc : hasConflict l e.2 now with
          | false =>
              rw [mergeStep_of_no_conflict now acc e l hget hc, ih _ hnd.2]
              simp [addedOf, hget]
          | true =>
              rw [mergeStep_of_conflict now acc e l hget hc, ih _ hnd.2]
              have hcong : ∀ e' ∈ rest,
                  addedOf (mapSet acc.localMap e.1 (serverWinsRecord e.1 e.2 now)) now e' =
                    addedOf acc.localMap now e' := by
                intro e' he'
                have hne : e'.1 ≠ e.1 := fun hceq =>
                  hnd.1 (hceq ▸ List.mem_map.mpr ⟨e', he', rfl⟩)
                simp [addedOf, mapGet_mapSet_ne _ _ _ _ hne]
              rw [List.filterMap_congr hcong]
              simp [addedOf, hget]

theorem mergeFold_id (E : List (String × ServerQuote)) (now : Nat) (acc : MergeAcc)
    (h : ∀ e ∈ E, ∃ l, mapGet acc.localMap e.1 = some l ∧ hasConflict l e.2 now = false) :
    E.foldl (mergeStep now) acc = acc := by
  induction E with
  | nil => rfl
  | cons e rest ih =>
      obtain ⟨l, hl, hc⟩ := h e (List.mem_cons_self _ _)
      simp only [List.foldl_cons]
      rw [mergeStep_of_no_conflict now acc e l hl hc]
      exact ih (fun e' he' => h e' (List.mem_cons_of_mem _ he'))

theorem mergeFold_mem (E : List (String × ServerQuote)) (now : Nat) (acc : MergeAcc)
    (k : String) (v : LocalQuote) (hp : (k, v) ∈ acc.localMap) (hk : k ∉ mapKeys E) :
    (k, v) ∈ (E.foldl (mergeStep now) acc).localMap := by
  induction E generalizing acc with
  | nil => exact hp
  | cons e rest ih =>
      rw [mapKeys_cons] at hk
      have h1 : k ≠ e.1 := fun hc => hk (hc ▸ List.mem_cons_self _ _)
      have h2 : k ∉ mapKeys rest := fun hc => hk (List.mem_cons_of_mem _ hc)
      simp only [List.foldl_cons]
      have hstep : (k, v) ∈ (mergeStep now acc e).localMap := by
        cases hget : mapGet acc.localMap e.1 with
        | none => rw [mergeStep_of_none now acc e hget]; exact hp
        | some l =>
            cases hc : hasConflict l e.2 now with
            | false => rw [mergeStep_of_no_conflict now acc e l hget hc]; exact hp
            | true =>
                rw [mergeStep_of_conflict now acc e l hget hc]
                exact mem_mapSet_ne _ _ _ _ _ hp h1
      exact ih _ hstep h2

/-! ### Sync-level helper lemmas -/

theorem applyPush_eq_map (p : LocalQuote → Bool) (sm : List (String × ServerQuote))
    (l : List LocalQuote) :
    applyPush p sm l =
      l.map (fun q => if isPushCandidate sm q then { q with pendingSync := !p q } else q) := by
  induction l with
  | nil => rfl
  | cons q rest ih => simp only [applyPush, List.map_cons, ih]

theorem pushMap_id (p : LocalQuote → Bool) (sm : List (String × ServerQuote))
    (q : LocalQuote) :
    ((fun q => if isPushCandidate sm q then { q with pendingSync := !p q } else q) q).id
      = q.id := by
  by_cases h : isPushCandidate sm q
  · simp [h]
  · simp [h]

theorem addedOf_id (m : List (String × LocalQuote)) (now : Nat)
    (e : String × ServerQuote) (i : LocalQuote) (h : addedOf m now e = some i) :
    i.id = e.1 := by
  unfold addedOf at h
  cases hget : mapGet m e.1 with
  | none =>
      rw [hget] at h
      obtain rfl : serverWinsRecord e.1 e.2 now = i := by injection h
      rfl
  | some l => rw [hget] at h; exact Option.noConfusion h

theorem addedOf_get_none (m : List (String × LocalQuote)) (now : Nat)
    (e : String × ServerQuote) (i : LocalQuote) (h : addedOf m now e = some i) :
    mapGet m e.1 = none := by
  unfold addedOf at h
  cases hget : mapGet m e.1 with
  | none => rfl
  | some l => rw [hget] at h; exact Option.noConfusion h

theorem mem_filterMap_addedOf_id (E : List (String × ServerQuote))
    (m : List (String × LocalQuote)) (now : Nat) (i : LocalQuote)
    (h : i ∈ E.filterMap (addedOf m now)) : i.id ∈ mapKeys E := by
  obtain ⟨e, he, hadd⟩ := List.mem_filterMap.mp h
  rw [addedOf_id m now e i hadd]
  exact List.mem_map.mpr ⟨e, he, rfl⟩

theorem nodup_filterMap_addedOf (E : List (String × ServerQuote))
    (m : List (String × LocalQuote)) (now : Nat) (hnd : (mapKeys E).Nodup) :
    ((E.filterMap (addedOf m now)).map LocalQuote.id).Nodup := by
  induction E with
  | nil => simp
  | cons e rest ih =>
      rw [mapKeys_cons, List.nodup_cons] at hnd
      rw [List.filterMap_cons]
      cases hadd : addedOf m now e with
      | none => exact ih hnd.2
      | some i =>
          simp only [List.map_cons, List.nodup_cons]
          constructor
          · intro hc
            obtain ⟨j, hj, hje⟩ := List.mem_map.mp hc
            have : j.id ∈ mapKeys rest := mem_filterMap_addedOf_id rest m now j hj
            rw [hje, addedOf_id m now e i hadd] at this
            exact hnd.1 this
          · exact ih hnd.2

theorem insertAll_fresh (m : List (String × LocalQuote)) (items : List LocalQuote)
    (hdisj : ∀ i ∈ items, i.id ∉ mapKeys m)
    (hnd : (items.map LocalQuote.id).Nodup) :
    insertAll m items = m ++ items.map (fun i => (i.id, i)) := by
  induction items generalizing m with
  | nil => simp [insertAll]
  | cons i rest ih =>
      rw [List.map_cons, List.nodup_cons] at hnd
      simp only [insertAll, List.foldl_cons]
      rw [mapSet_fresh m i.id i (hdisj i (List.mem_cons_self _ _))]
      have hd : ∀ j ∈ rest, j.id ∉ mapKeys (m ++ [(i.id, i)]) := by
        intro j hj hc
        have hkeys : mapKeys (m ++ [(i.id, i)]) = mapKeys m ++ [i.id] := by
          simp [mapKeys]
        rw [hkeys] at hc
        rcases List.mem_append.mp hc with h1 | h1
        · exact hdisj j (List.mem_cons_of_mem _ hj) h1
        · exact hnd.1 ((List.mem_singleton.mp h1) ▸ List.mem_map.mpr ⟨j, hj, rfl⟩)
      have := ih (m ++ [(i.id, i)]) hd hnd.2
      rw [insertAll] at this
      rw [this]
      simp

theorem mergeQuotes_newLocal (localQuotes : List LocalQuote)
    (serverQuotes : List ServerQuote) (now : Nat) :
    (mergeQuotes localQuotes serverQuotes now).newLocal =
      (buildServerMap serverQuotes).filterMap
        (addedOf (buildLocalMap localQuotes) now) := by
  rw [mergeQuotes, mergeFold_newLocal (buildServerMap serverQuotes) now
    ⟨buildLocalMap localQuotes, [], []⟩ (nodup_mapKeys_buildMap _)]
  rfl

theorem mergeQuotes_conflicts (localQuotes : List LocalQuote)
    (serverQuotes : List ServerQuote) (now : Nat) :
    (mergeQuotes localQuotes serverQuotes now).conflicts =
      (buildServerMap serverQuotes).filterMap
        (conflictOf (buildLocalMap localQuotes) now) := by
  rw [mergeQuotes, mergeFold_conflicts (buildServerMap serverQuotes) now
    ⟨buildLocalMap localQuotes, [], []⟩ (nodup_mapKeys_buildMap _)]
  rfl

theorem mergeQuotes_keys (localQuotes : List LocalQuote)
    (serverQuotes : List ServerQuote) (now : Nat) :
    mapKeys (mergeQuotes localQuotes serverQuotes now).localMap =
      mapKeys (buildLocalMap localQuotes) := by
  rw [mergeQuotes, mergeFold_keys]

theorem mergeQuotes_idKeyed (localQuotes : List LocalQuote)
    (serverQuotes : List ServerQuote) (now : Nat) :
    IdKeyed (mergeQuotes localQuotes serverQuotes now).localMap := by
  rw [mergeQuotes]
  exact mergeFold_idKeyed _ _ _ (idKeyed_buildLocalMap localQuotes)

theorem mergeQuotes_newLocal_fresh (localQuotes : List LocalQuote)
    (serverQuotes : List ServerQuote) (now : Nat) :
    ∀ i ∈ (mergeQuotes localQuotes serverQuotes now).newLocal,
      i.id ∉ mapKeys (mergeQuotes localQuotes serverQuotes now).localMap := by
  intro i hi
  rw [mergeQuotes_newLocal] at hi
  obtain ⟨e, he, hadd⟩ := List.mem_filterMap.mp hi
  rw [mergeQuotes_keys, addedOf_id _ _ _ _ hadd]
  exact not_mem_mapKeys_of_get_none _ _ (addedOf_get_none _ _ _ _ hadd)

theorem mergeQuotes_newLocal_nodup (localQuotes : List LocalQuote)
    (serverQuotes : List ServerQuote) (now : Nat) :
    (((mergeQuotes localQuotes serverQuotes now).newLocal).map LocalQuote.id).Nodup := by
  rw [mergeQuotes_newLocal]
  exact nodup_filterMap_addedOf _ _ _ (nodup_mapKeys_buildMap _)

theorem mergedStore_eq (localQuotes : List LocalQuote)
    (serverQuotes : List ServerQuote) (now : Nat) :
    mergedStore localQuotes serverQuotes now =
      ((mergeQuotes localQuotes serverQuotes now).localMap).map Prod.snd ++
        (mergeQuotes localQuotes serverQuotes now).newLocal := by
  rw [mergedStore]
  rw [insertAll_fresh _ _ (mergeQuotes_newLocal_fresh localQuotes serverQuotes now)
    (mergeQuotes_newLocal_nodup localQuotes serverQuotes now)]
  rw [List.map_append, List.map_map]
  have hcomp : (Prod.snd ∘ fun i : LocalQuote => (i.id, i)) = id := rfl
  rw [hcomp, List.map_id]

theorem mergedStore_ids_nodup (localQuotes : List LocalQuote)
    (serverQuotes : List ServerQuote) (now : Nat) :
    ((mergedStore localQuotes serverQuotes now).map LocalQuote.id).Nodup := by
  rw [mergedStore_eq, List.map_append]
  rw [ids_values_eq_mapKeys _ (mergeQuotes_idKeyed localQuotes serverQuotes now)]
  rw [List.nodup_append]
  refine ⟨?_, mergeQuotes_newLocal_nodup localQuotes serverQuotes now, ?_⟩
  · rw [mergeQuotes_keys]
    exact nodup_mapKeys_buildMap _
  · intro k hk hk2
    obtain ⟨i, hi, hie⟩ := List.mem_map.mp hk2
    exact mergeQuotes_newLocal_fresh localQuotes serverQuotes now i hi (hie ▸ hk)

theorem mergedStore_pairs (localQuotes : List LocalQuote)
    (serverQuotes : List ServerQuote) (now : Nat) (k : String) :
    storeGet (mergedStore localQuotes serverQuotes now) k =
      mapGet (insertAll (mergeQuotes localQuotes serverQuotes now).localMap
        (mergeQuotes localQuotes serverQuotes now).newLocal) k := by
  rw [mergedStore]
  exact storeGet_values _ (idKeyed_insertAll _ _
    (mergeQuotes_idKeyed localQuotes serverQuotes now)) k

theorem syncWithServer_quotes (localQuotes : List LocalQuote)
    (serverQuotes : List ServerQuote) (reg : List ConflictEntry)
    (p : LocalQuote → Bool) (now : Nat) :
    (syncWithServer localQuotes serverQuotes reg p now).quotes =
      applyPush p (buildServerMap serverQuotes)
        (mergedStore localQuotes serverQuotes now) := rfl

theorem syncWithServer_conflicts (localQuotes : List LocalQuote)
    (serverQuotes : List ServerQuote) (reg : List ConflictEntry)
    (p : LocalQuote → Bool) (now : Nat) :
    (syncWithServer localQuotes serverQuotes reg p now).conflicts =
      (mergeQuotes localQuotes serverQuotes now).conflicts := rfl

theorem syncWithServer_registry (localQuotes : List LocalQuote)
    (serverQuotes : List ServerQuote) (reg : List ConflictEntry)
    (p : LocalQuote → Bool) (now : Nat) :
    (syncWithServer localQuotes serverQuotes reg p now).registry =
      if 0 < (mergeQuotes localQuotes serverQuotes now).conflicts.length then
        (mergeQuotes localQuotes serverQuotes now).conflicts
      else reg := rfl

theorem syncWithServer_added (localQuotes : List LocalQuote)
    (serverQuotes : List ServerQuote) (reg : List ConflictEntry)
    (p : LocalQuote → Bool) (now : Nat) :
    (syncWithServer localQuotes serverQuotes reg p now).added =
      (mergeQuotes localQuotes serverQuotes now).newLocal.length := rfl

theorem syncWithServer_candidates (localQuotes : List LocalQuote)
    (serverQuotes : List ServerQuote) (reg : List ConflictEntry)
    (p : LocalQuote → Bool) (now : Nat) :
    (syncWithServer localQuotes serverQuotes reg p now).candidates =
      (mergedStore localQuotes serverQuotes now).filter
        (isPushCandidate (buildServerMap serverQuotes)) := rfl

theorem sync_storeGet (localQuotes : List LocalQuote)
    (serverQuotes : List ServerQuote) (reg : List ConflictEntry)
    (p : LocalQuote → Bool) (now : Nat) (k : String) :
    storeGet (syncWithServer localQuotes serverQuotes reg p now).quotes k =
      Option.map
        (fun q => if isPushCandidate (buildServerMap serverQuotes) q then
          { q with pendingSync := !p q } else q)
        (storeGet (mergedStore localQuotes serverQuotes now) k) := by
  rw [syncWithServer_quotes, applyPush_eq_map]
  exact storeGet_map_pres _ _ k (pushMap_id p (buildServerMap serverQuotes))

theorem sync_quotes_ids_nodup (localQuotes : List LocalQuote)
    (serverQuotes : List ServerQuote) (reg : List ConflictEntry)
    (p : LocalQuote → Bool) (now : Nat) :
    (((syncWithServer localQuotes serverQuotes reg p now).quotes).map LocalQuote.id).Nodup := by
  rw [syncWithServer_quotes, applyPush_eq_map, List.map_map]
  have : (LocalQuote.id ∘ fun q =>
      if isPushCandidate (buildServerMap serverQuotes) q then
        { q with pendingSync := !p q } else q) = LocalQuote.id := by
    funext q
    exact pushMap_id p (buildServerMap serverQuotes) q
  rw [this]
  exact mergedStore_ids_nodup localQuotes serverQuotes now

/-! ### Generic pair-map and uniqueness lemmas -/

theorem mapGet_map_pair_nodup {α : Type} (f : α → String) (l : List α) (x : α)
    (hnd : (l.map f).Nodup) (hx : x ∈ l) :
    mapGet (l.map fun y => (f y, y)) (f x) = some x := by
  induction l with
  | nil => simp at hx
  | cons y rest ih =>
      rw [List.map_cons, List.nodup_cons] at hnd
      rcases List.mem_cons.mp hx with h | h
      · subst h
        simp [mapGet]
      · have hne : f y ≠ f x := fun hc =>
          hnd.1 (hc ▸ List.mem_map.mpr ⟨x, h, rfl⟩)
        simp only [List.map_cons, mapGet, if_neg hne]
        exact ih hnd.2 h

theorem mapKeys_map_pair {α : Type} (f : α → String) (l : List α) :
    mapKeys (l.map fun y => (f y, y)) = l.map f := by
  rw [mapKeys, List.map_map]
  rfl

theorem buildMap_pair_self {α : Type} (f : α → String) (l : List α)
    (hnd : (l.map f).Nodup) :
    buildMap (l.map fun y => (f y, y)) = l.map fun y => (f y, y) :=
  buildMap_self _ (by rw [mapKeys_map_pair]; exact hnd)

theorem buildLocalMap_nodup_eq (l : List LocalQuote)
    (hnd : (l.map LocalQuote.id).Nodup) :
    buildLocalMap l = l.map fun q => (q.id, q) :=
  buildMap_pair_self LocalQuote.id l hnd

theorem buildServerMap_nodup_eq (l : List ServerQuote)
    (hnd : (l.map ServerQuote.id).Nodup) :
    buildServerMap l = l.map fun s => (s.id, s) :=
  buildMap_pair_self ServerQuote.id l hnd

theorem values_map_pair_id (l : List LocalQuote) :
    (l.map fun q => (q.id, q)).map Prod.snd = l := by
  rw [List.map_map]
  have : (Prod.snd ∘ fun q : LocalQuote => (q.id, q)) = id := rfl
  rw [this, List.map_id]

theorem mem_mapSet_sub {α : Type} (m : List (String × α)) (k : String) (v : α)
    (p : String × α) (hp : p ∈ mapSet m k v) : p ∈ m ∨ p = (k, v) := by
  induction m with
  | nil => simp [mapSet] at hp; exact Or.inr hp
  | cons q rest ih =>
      obtain ⟨k₀, v₀⟩ := q
      by_cases h0 : k₀ = k
      · simp only [mapSet, if_pos h0] at hp
        rcases List.mem_cons.mp hp with h | h
        · exact Or.inr h
        · exact Or.inl (List.mem_cons_of_mem _ h)
      · simp only [mapSet, if_neg h0] at hp
        rcases List.mem_cons.mp hp with h | h
        · exact Or.inl (h ▸ List.mem_cons_self _ _)
        · rcases ih h with h1 | h1
          · exact Or.inl (List.mem_cons_of_mem _ h1)
          · exact Or.inr h1

theorem foldl_mapSet_mem_sub {α : Type} (es : List (String × α))
    (m : List (String × α)) (p : String × α)
    (hp : p ∈ es.foldl (fun m' e => mapSet m' e.1 e.2) m) : p ∈ m ∨ p ∈ es := by
  induction es generalizing m with
  | nil => exact Or.inl hp
  | cons e rest ih =>
      simp only [List.foldl_cons] at hp
      rcases ih (mapSet m e.1 e.2) hp with h1 | h1
      · rcases mem_mapSet_sub m e.1 e.2 p h1 with h2 | h2
        · exact Or.inl h2
        · exact Or.inr (h2 ▸ List.mem_cons_self _ _)
      · exact Or.inr (List.mem_cons_of_mem _ h1)

theorem mem_buildMap_sub {α : Type} (es : List (String × α)) (p : String × α)
    (hp : p ∈ buildMap es) : p ∈ es := by
  rw [buildMap] at hp
  rcases foldl_mapSet_mem_sub es [] p hp with h | h
  · simp at h
  · exact h

theorem conflictOf_id (m : List (String × LocalQuote)) (now : Nat)
    (e : String × ServerQuote) (c : ConflictEntry)
    (h : conflictOf m now e = some c) : c.id = e.1 := by
  simp only [conflictOf] at h
  cases hget : mapGet m e.1 with
  | none => rw [hget] at h; simp at h
  | some l =>
      rw [hget] at h
      cases hc : hasConflict l e.2 now with
      | false => simp [hc] at h
      | true =>
          simp only [hc, if_true] at h
          obtain rfl : (⟨e.1, l, toServerSnap e.1 e.2 now⟩ : ConflictEntry) = c := by
            injection h
          rfl

theorem length_filterMap_eq_filter {α β : Type} (l : List α) (f : α → Option β) :
    (l.filterMap f).length = (l.filter (fun x => (f x).isSome)).length := by
  induction l with
  | nil => rfl
  | cons x rest ih =>
      rw [List.filterMap_cons, List.filter_cons]
      cases hfx : f x with
      | none => simpa [hfx] using ih
      | some y => simpa [hfx] using ih

theorem filter_id_length_one (l : List LocalQuote) (k : String)
    (hnd : (l.map LocalQuote.id).Nodup) (h : ∃ q ∈ l, q.id = k) :
    (l.filter (fun q => q.id == k)).length = 1 := by
  induction l with
  | nil => simp at h
  | cons q rest ih =>
      rw [List.map_cons, List.nodup_cons] at hnd
      rw [List.filter_cons]
      by_cases hq : q.id = k
      · have hrest : rest.filter (fun q' => q'.id == k) = [] := by
          rw [List.filter_eq_nil_iff]
          intro x hx
          simp only [bne_iff_ne, ne_eq, beq_iff_eq]
          intro hc
          exact hnd.1 (hq ▸ hc ▸ List.mem_map.mpr ⟨x, hx, rfl⟩)
        simp [hq, hrest]
      · obtain ⟨q', hq', hq'id⟩ := h
        rcases List.mem_cons.mp hq' with h1 | h1
        · exact absurd (h1 ▸ hq'id) hq
        · simpa [hq] using ih hnd.2 ⟨q', h1, hq'id⟩

/-! ### mergedStore lookup lemmas -/

theorem mergedStore_get_of_localMap (localQuotes : List LocalQuote)
    (serverQuotes : List ServerQuote) (now : Nat) (k : String) (v : LocalQuote)
    (h : mapGet (mergeQuotes localQuotes serverQuotes now).localMap k = some v) :
    storeGet (mergedStore localQuotes serverQuotes now) k = some v := by
  rw [mergedStore_pairs, insertAll_fresh _ _
    (mergeQuotes_newLocal_fresh localQuotes serverQuotes now)
    (mergeQuotes_newLocal_nodup localQuotes serverQuotes now)]
  exact mapGet_append_some _ _ k v h

theorem mergedStore_get_of_none (localQuotes : List LocalQuote)
    (serverQuotes : List ServerQuote) (now : Nat) (k : String)
    (h : mapGet (mergeQuotes localQuotes serverQuotes now).localMap k = none) :
    storeGet (mergedStore localQuotes serverQuotes now) k =
      mapGet ((mergeQuotes localQuotes serverQuotes now).newLocal.map
        (fun i => (i.id, i))) k := by
  rw [mergedStore_pairs, insertAll_fresh _ _
    (mergeQuotes_newLocal_fresh localQuotes serverQuotes now)
    (mergeQuotes_newLocal_nodup localQuotes serverQuotes now)]
  exact mapGet_append_none _ _ k h

/-! ### Claim theorems -/

/-- C4: for every merge pass and any pair of local and remote input
snapshots, the Record Store committed at the end of the pass contains no
two records sharing the same id. -/
theorem merge_result_ids_nodup (localQuotes : List LocalQuote)
    (serverQuotes : List ServerQuote) (reg : List ConflictEntry)
    (pushOk : LocalQuote → Bool) (now : Nat) :
    (((syncWithServer localQuotes serverQuotes reg pushOk now).quotes).map
      LocalQuote.id).Nodup :=
  sync_quotes_ids_nodup localQuotes serverQuotes reg pushOk now

/-- C9: an import whose top-level JSON value is not an array is rejected
with the invalid-format outcome and the Record Store is left exactly as
it was. -/
theorem import_non_array_rejected (v : JsonValue) (quotes : List LocalQuote)
    (fresh : Nat → String) (now : Nat) (h : isArray v = false) :
    importQuotesFromJSON v quotes fresh now = (quotes, ImportResult.invalidFormat) := by
  cases v with
  | jArray items => simp [isArray] at h
  | jObject fields => rfl
  | jString s => rfl
  | jNumber n => rfl
  | jBool b => rfl
  | jNull => rfl

/-- Witness for C9: importing the JSON value with a single field
`"not": "an array"` leaves a one-record store unchanged and yields the
invalid-format outcome. -/
theorem import_non_array_rejected_witness :
    isArray (JsonValue.jObject [("not", "an array")]) = false ∧
      importQuotesFromJSON (JsonValue.jObject [("not", "an array")])
          [⟨"1", "A", "M", 100, false⟩] (fun _ => "u") 0 =
        ([⟨"1", "A", "M", 100, false⟩], ImportResult.invalidFormat) :=
  ⟨rfl, import_non_array_rejected (JsonValue.jObject [("not", "an array")])
    [⟨"1", "A", "M", 100, false⟩] (fun _ => "u") 0 rfl⟩

/-- C10: the pushed set is a superset of the local-only records, and a
record with `pendingSync` still true is a push candidate even when its
id is present on the remote snapshot. -/
theorem push_candidates_superset (localQuotes : List LocalQuote)
    (serverQuotes : List ServerQuote) (reg : List ConflictEntry)
    (pushOk : LocalQuote → Bool) (now : Nat) (r : LocalQuote)
    (hr : r ∈ mergedStore localQuotes serverQuotes now) :
    (mapGet (buildServerMap serverQuotes) r.id = none →
      r ∈ (syncWithServer localQuotes serverQuotes reg pushOk now).candidates) ∧
    (r.pendingSync = true →
      r ∈ (syncWithServer localQuotes serverQuotes reg pushOk now).candidates) := by
  rw [syncWithServer_candidates]
  constructor
  · intro h
    exact List.mem_filter.mpr ⟨hr, by simp [isPushCandidate, h]⟩
  · intro h
    exact List.mem_filter.mpr ⟨hr, by simp [isPushCandidate, h]⟩

/-- Witness for C10: a record with `pendingSync = true` whose id the
remote snapshot already lists is still selected for the push phase. -/
theorem push_candidates_superset_witness :
    (⟨"a", "T", "C", 1, true⟩ : LocalQuote) ∈
        mergedStore [⟨"a", "T", "C", 1, true⟩] [⟨"a", "T", "C", some 1⟩] 0 ∧
      (⟨"a", "T", "C", 1, true⟩ : LocalQuote) ∈
        (syncWithServer [⟨"a", "T", "C", 1, true⟩] [⟨"a", "T", "C", some 1⟩] []
          (fun _ => true) 0).candidates :=
  ⟨by decide,
    (push_candidates_superset [⟨"a", "T", "C", 1, true⟩] [⟨"a", "T", "C", some 1⟩]
      [] (fun _ => true) 0 ⟨"a", "T", "C", 1, true⟩ (by decide)).2 rfl⟩

/-- C6: during the push phase each candidate's `pendingSync` ends false
on a successful push and true on a failed one, with every candidate
processed independently of other candidates' failures; and a record
whose push failed stays in the store with `pendingSync = true` and, if
still local-only, is selected again (without duplication) by the next
reconcile call. -/
theorem push_disposition_and_retry (localQuotes : List LocalQuote)
    (serverQuotes : List ServerQuote) (reg : List ConflictEntry)
    (pushOk : LocalQuote → Bool) (now : Nat) :
    ((syncWithServer localQuotes serverQuotes reg pushOk now).quotes =
      (mergedStore localQuotes serverQuotes now).map
        (fun q => if isPushCandidate (buildServerMap serverQuotes) q then
          { q with pendingSync := !pushOk q } else q)) ∧
    (∀ (r : LocalQuote) (serverQuotes₂ : List ServerQuote)
        (reg₂ : List ConflictEntry) (pushOk₂ : LocalQuote → Bool) (now₂ : Nat),
      r ∈ (syncWithServer localQuotes serverQuotes reg pushOk now).quotes →
      r.pendingSync = true →
      mapGet (buildServerMap serverQuotes₂) r.id = none →
      r ∈ (syncWithServer
            (syncWithServer localQuotes serverQuotes reg pushOk now).quotes
            serverQuotes₂ reg₂ pushOk₂ now₂).candidates ∧
      ((syncWithServer
            (syncWithServer localQuotes serverQuotes reg pushOk now).quotes
            serverQuotes₂ reg₂ pushOk₂ now₂).quotes.filter
          (fun q => q.id == r.id)).length = 1) := by
  constructor
  · rw [syncWithServer_quotes, applyPush_eq_map]
  · intro r serverQuotes₂ reg₂ pushOk₂ now₂ hr hpend habs
    have hq₁nd := sync_quotes_ids_nodup localQuotes serverQuotes reg pushOk now
    have hlm₂ : buildLocalMap (syncWithServer localQuotes serverQuotes reg pushOk now).quotes =
        (syncWithServer localQuotes serverQuotes reg pushOk now).quotes.map
          (fun q => (q.id, q)) :=
      buildLocalMap_nodup_eq _ hq₁nd
    have hpair : (r.id, r) ∈ buildLocalMap
        (syncWithServer localQuotes serverQuotes reg pushOk now).quotes := by
      rw [hlm₂]
      exact List.mem_map.mpr ⟨r, hr, rfl⟩
    have hnotkeys : r.id ∉ mapKeys (buildServerMap serverQuotes₂) :=
      not_mem_mapKeys_of_get_none _ _ habs
    have hmem2 : (r.id, r) ∈ (mergeQuotes
        (syncWithServer localQuotes serverQuotes reg pushOk now).quotes
        serverQuotes₂ now₂).localMap := by
      rw [mergeQuotes]
      exact mergeFold_mem _ _ _ _ _ hpair hnotkeys
    have hmerged : r ∈ mergedStore
        (syncWithServer localQuotes serverQuotes reg pushOk now).quotes
        serverQuotes₂ now₂ := by
      rw [mergedStore_eq]
      exact List.mem_append.mpr (Or.inl (List.mem_map.mpr ⟨(r.id, r), hmem2, rfl⟩))
    constructor
    · rw [syncWithServer_candidates]
      exact List.mem_filter.mpr ⟨hmerged, by simp [isPushCandidate, hpend]⟩
    · apply filter_id_length_one
      · exact sync_quotes_ids_nodup _ _ _ _ _
      · refine ⟨(fun q => if isPushCandidate (buildServerMap serverQuotes₂) q then
          { q with pendingSync := !pushOk₂ q } else q) r, ?_, ?_⟩
        · rw [syncWithServer_quotes, applyPush_eq_map]
          exact List.mem_map.mpr ⟨r, hmerged, rfl⟩
        · exact pushMap_id pushOk₂ (buildServerMap serverQuotes₂) r

/-- Witness for C6: a local-only record whose push fails stays pending
and is selected again, exactly once, by the next pass. -/
theorem push_disposition_and_retry_witness :
    (⟨"a", "T", "C", 1, true⟩ : LocalQuote) ∈
        (syncWithServer
          (syncWithServer [⟨"a", "T", "C", 1, true⟩] [] [] (fun _ => false) 0).quotes
          [] [] (fun _ => true) 1).candidates ∧
      ((syncWithServer
          (syncWithServer [⟨"a", "T", "C", 1, true⟩] [] [] (fun _ => false) 0).quotes
          [] [] (fun _ => true) 1).quotes.filter
        (fun q => q.id == "a")).length = 1 :=
  (push_disposition_and_retry [⟨"a", "T", "C", 1, true⟩] [] [] (fun _ => false) 0).2
    ⟨"a", "T", "C", 1, true⟩ [] [] (fun _ => true) 1 (by decide) rfl rfl

/-- C1: when an id is present in both snapshots with differing
`lastModified` timestamps and differing texts, the pass records a
conflict entry capturing both full snapshots, and under the default
remote-wins policy the stored record for that id ends the pass with the
remote text, category and `lastModified` and with `pendingSync`
cleared. -/
theorem conflict_detected_and_remote_wins (localQuotes : List LocalQuote)
    (serverQuotes : List ServerQuote) (reg : List ConflictEntry)
    (pushOk : LocalQuote → Bool) (now : Nat) (l : LocalQuote) (s : ServerQuote)
    (t : Nat) (hndl : (localQuotes.map LocalQuote.id).Nodup)
    (hnds : (serverQuotes.map ServerQuote.id).Nodup)
    (hl : l ∈ localQuotes) (hs : s ∈ serverQuotes) (hid : l.id = s.id)
    (ht : s.lastModified = some t) (hlm : l.lastModified ≠ t)
    (htext : l.text ≠ s.text) :
    (⟨s.id, l, ⟨s.id, s.text, s.category, t⟩⟩ : ConflictEntry) ∈
        (syncWithServer localQuotes serverQuotes reg pushOk now).conflicts ∧
      storeGet (syncWithServer localQuotes serverQuotes reg pushOk now).quotes s.id =
        some ⟨s.id, s.text, s.category, t, false⟩ := by
  have hmemSM : (s.id, s) ∈ buildServerMap serverQuotes := by
    rw [buildServerMap_nodup_eq serverQuotes hnds]
    exact List.mem_map.mpr ⟨s, hs, rfl⟩
  have hgetSM : mapGet (buildServerMap serverQuotes) s.id = some s := by
    rw [buildServerMap_nodup_eq serverQuotes hnds]
    have := mapGet_map_pair_nodup ServerQuote.id serverQuotes s hnds hs
    exact this
  have hgetLM : mapGet (buildLocalMap localQuotes) s.id = some l := by
    rw [buildLocalMap_nodup_eq localQuotes hndl, ← hid]
    exact mapGet_map_pair_nodup LocalQuote.id localQuotes l hndl hl
  have hconf : hasConflict l s now = true := by
    simp [hasConflict, ht, bne_iff_ne, hlm, htext]
  have hndSM : (mapKeys (buildServerMap serverQuotes)).Nodup := by
    rw [buildServerMap]
    exact nodup_mapKeys_buildMap _
  constructor
  · rw [syncWithServer_conflicts, mergeQuotes_conflicts]
    refine List.mem_filterMap.mpr ⟨(s.id, s), hmemSM, ?_⟩
    simp [conflictOf, hgetLM, hconf, toServerSnap, ht]
  · have hgetacc : mapGet (mergeQuotes localQuotes serverQuotes now).localMap s.id =
        some (if hasConflict l s now then serverWinsRecord s.id s now else l) := by
      rw [mergeQuotes]
      exact mergeFold_get_some _ _ _ _ _ _ hndSM hmemSM hgetLM
    have hsw : serverWinsRecord s.id s now =
        (⟨s.id, s.text, s.category, t, false⟩ : LocalQuote) := by
      simp [serverWinsRecord, ht]
    have hgetacc2 : mapGet (mergeQuotes localQuotes serverQuotes now).localMap s.id =
        some (⟨s.id, s.text, s.category, t, false⟩ : LocalQuote) := by
      rw [← hsw]
      simpa [hconf] using hgetacc
    have hstore := mergedStore_get_of_localMap localQuotes serverQuotes now s.id _ hgetacc2
    rw [sync_storeGet, hstore]
    simp [isPushCandidate, hgetSM]

/-- Witness for C1: the spec's conflict-detection scenario with
`{id:"a", text:"X", lastModified:100}` locally and
`{id:"a", text:"Y", lastModified:200}` remotely. -/
theorem conflict_detected_and_remote_wins_witness :
    (⟨"a", ⟨"a", "X", "M", 100, false⟩, ⟨"a", "Y", "N", 200⟩⟩ : ConflictEntry) ∈
        (syncWithServer [⟨"a", "X", "M", 100, false⟩] [⟨"a", "Y", "N", some 200⟩]
          [] (fun _ => true) 0).conflicts ∧
      storeGet (syncWithServer [⟨"a", "X", "M", 100, false⟩]
          [⟨"a", "Y", "N", some 200⟩] [] (fun _ => true) 0).quotes "a" =
        some ⟨"a", "Y", "N", 200, false⟩ :=
  conflict_detected_and_remote_wins [⟨"a", "X", "M", 100, false⟩]
    [⟨"a", "Y", "N", some 200⟩] [] (fun _ => true) 0
    ⟨"a", "X", "M", 100, false⟩ ⟨"a", "Y", "N", some 200⟩ 200
    (by decide) (by decide) (by decide) (by decide) rfl rfl (by decide) (by decide)

/-- Counterexample to C3 as stated: with same text, a different remote
timestamp and `pendingSync = true`, the pass records no conflict, yet
the stored record is not byte-for-byte unchanged — the push phase clears
its `pendingSync` flag. -/
theorem tie_break_byte_for_byte_cx :
    (syncWithServer [⟨"1", "A", "M", 100, true⟩] [⟨"1", "A", "M", some 200⟩] []
        (fun _ => true) 0).conflicts = [] ∧
    storeGet (syncWithServer [⟨"1", "A", "M", 100, true⟩] [⟨"1", "A", "M", some 200⟩]
        [] (fun _ => true) 0).quotes "1" = some ⟨"1", "A", "M", 100, false⟩ ∧
    (syncWithServer [⟨"1", "A", "M", 100, true⟩] [⟨"1", "A", "M", some 200⟩] []
        (fun _ => true) 0).quotes ≠ [⟨"1", "A", "M", 100, true⟩] :=
  ⟨by decide, by decide, by decide⟩

/-- C3 (amended): when the timestamps are equal or the texts are
identical, the pass records no conflict for that id and keeps the
record's id, text, category and `lastModified` unchanged; `pendingSync`
is also unchanged whenever it was `false` (a pending record may still
have its flag settled by the push phase). -/
theorem tie_break_no_conflict_keeps_fields (localQuotes : List LocalQuote)
    (serverQuotes : List ServerQuote) (reg : List ConflictEntry)
    (pushOk : LocalQuote → Bool) (now : Nat) (l : LocalQuote) (s : ServerQuote)
    (t : Nat) (hndl : (localQuotes.map LocalQuote.id).Nodup)
    (hnds : (serverQuotes.map ServerQuote.id).Nodup)
    (hl : l ∈ localQuotes) (hs : s ∈ serverQuotes) (hid : l.id = s.id)
    (ht : s.lastModified = some t)
    (htie : l.lastModified = t ∨ l.text = s.text) :
    (∀ c ∈ (syncWithServer localQuotes serverQuotes reg pushOk now).conflicts,
      c.id ≠ s.id) ∧
    (∃ r, storeGet (syncWithServer localQuotes serverQuotes reg pushOk now).quotes
        s.id = some r ∧ r.id = l.id ∧ r.text = l.text ∧ r.category = l.category ∧
      r.lastModified = l.lastModified ∧ (l.pendingSync = false → r = l)) := by
  have hgetSM : mapGet (buildServerMap serverQuotes) s.id = some s := by
    rw [buildServerMap_nodup_eq serverQuotes hnds]
    exact mapGet_map_pair_nodup ServerQuote.id serverQuotes s hnds hs
  have hgetLM : mapGet (buildLocalMap localQuotes) s.id = some l := by
    rw [buildLocalMap_nodup_eq localQuotes hndl, ← hid]
    exact mapGet_map_pair_nodup LocalQuote.id localQuotes l hndl hl
  have hconf : hasConflict l s now = false := by
    rcases htie with h | h
    · simp [hasConflict, ht, h]
    · simp [hasConflict, h]
  have hndSM : (mapKeys (buildServerMap serverQuotes)).Nodup := by
    rw [buildServerMap]
    exact nodup_mapKeys_buildMap _
  have hmemSM : (s.id, s) ∈ buildServerMap serverQuotes := by
    rw [buildServerMap_nodup_eq serverQuotes hnds]
    exact List.mem_map.mpr ⟨s, hs, rfl⟩
  constructor
  · intro c hc hcid
    rw [syncWithServer_conflicts, mergeQuotes_conflicts] at hc
    obtain ⟨e, heSM, hconfOf⟩ := List.mem_filterMap.mp hc
    have he1 : e.1 = s.id := (conflictOf_id _ _ _ _ hconfOf) ▸ hcid
    have heSM' : e ∈ serverQuotes.map (fun s' => (s'.id, s')) := by
      rw [← buildServerMap_nodup_eq serverQuotes hnds]
      exact heSM
    obtain ⟨s', hs', hse⟩ := List.mem_map.mp heSM'
    have hs'id : s'.id = s.id := by rw [← hse] at he1; exact he1
    have hss : s' = s := List.inj_on_of_nodup_map hnds hs' hs hs'id
    subst hss
    rw [← hse] at hconfOf
    simp [conflictOf, hgetLM, hconf] at hconfOf
  · have hgetacc : mapGet (mergeQuotes localQuotes serverQuotes now).localMap s.id =
        some (if hasConflict l s now then serverWinsRecord s.id s now else l) := by
      rw [mergeQuotes]
      exact mergeFold_get_some _ _ _ _ _ _ hndSM hmemSM hgetLM
    have hgetacc2 : mapGet (mergeQuotes localQuotes serverQuotes now).localMap s.id =
        some l := by simpa [hconf] using hgetacc
    have hstore := mergedStore_get_of_localMap localQuotes serverQuotes now s.id _ hgetacc2
    rw [sync_storeGet, hstore]
    have hcand : isPushCandidate (buildServerMap serverQuotes) l = l.pendingSync := by
      simp [isPushCandidate, hid, hgetSM]
    refine ⟨_, rfl, ?_, ?_, ?_, ?_, ?_⟩
    · by_cases hc : isPushCandidate (buildServerMap serverQuotes) l <;> simp [hc]
    · by_cases hc : isPushCandidate (buildServerMap serverQuotes) l <;> simp [hc]
    · by_cases hc : isPushCandidate (buildServerMap serverQuotes) l <;> simp [hc]
    · by_cases hc : isPushCandidate (buildServerMap serverQuotes) l <;> simp [hc]
    · intro hps
      simp [hcand, hps]

/-- Witness for the amended C3: the spec's tie-break scenario (same
text, remote timestamp 200, `pendingSync = false`) keeps the stored
record exactly as it was and records no conflict. -/
theorem tie_break_no_conflict_keeps_fields_witness :
    (∀ c ∈ (syncWithServer [⟨"1", "A", "M", 100, false⟩] [⟨"1", "A", "M", some 200⟩]
        [] (fun _ => true) 0).conflicts, c.id ≠ "1") ∧
    (∃ r, storeGet (syncWithServer [⟨"1", "A", "M", 100, false⟩]
        [⟨"1", "A", "M", some 200⟩] [] (fun _ => true) 0).quotes "1" = some r ∧
      r.id = "1" ∧ r.text = "A" ∧ r.category = "M" ∧ r.lastModified = 100 ∧
      ((false : Bool) = false → r = ⟨"1", "A", "M", 100, false⟩)) :=
  tie_break_no_conflict_keeps_fields [⟨"1", "A", "M", 100, false⟩]
    [⟨"1", "A", "M", some 200⟩] [] (fun _ => true) 0
    ⟨"1", "A", "M", 100, false⟩ ⟨"1", "A", "M", some 200⟩ 200
    (by decide) (by decide) (by decide) (by decide) rfl rfl (Or.inr rfl)

/-- The built local map and the store agree on which ids are absent. -/
theorem buildLocalMap_get_none_iff (localQuotes : List LocalQuote) (k : String) :
    mapGet (buildLocalMap localQuotes) k = none ↔ storeGet localQuotes k = none := by
  constructor
  · intro h
    cases hs : storeGet localQuotes k with
    | none => rfl
    | some q =>
        have hk : k ∈ mapKeys (localQuotes.map fun q => (q.id, q)) :=
          (mapGet_isSome_iff _ _).mp (by rw [storeGet] at hs; simp [hs])
        have hk2 : k ∈ mapKeys (buildLocalMap localQuotes) := by
          rw [buildLocalMap, mem_mapKeys_buildMap]
          exact hk
        have := (mapGet_isSome_iff _ _).mpr hk2
        rw [h] at this
        simp at this
  · intro h
    cases hm : mapGet (buildLocalMap localQuotes) k with
    | none => rfl
    | some v =>
        have hk2 : k ∈ mapKeys (buildLocalMap localQuotes) :=
          (mapGet_isSome_iff _ _).mp (by simp [hm])
        have hk : k ∈ mapKeys (localQuotes.map fun q => (q.id, q)) := by
          rw [buildLocalMap, mem_mapKeys_buildMap] at hk2
          exact hk2
        have := (mapGet_isSome_iff _ _).mpr hk
        rw [storeGet] at h
        rw [h] at this
        simp at this

/-- C7: every remote record whose id is absent locally is added to the
store with the remote text, category and `lastModified` and
`pendingSync = false`, and the pass counts each such addition. -/
theorem server_only_added (localQuotes : List LocalQuote)
    (serverQuotes : List ServerQuote) (reg : List ConflictEntry)
    (pushOk : LocalQuote → Bool) (now : Nat)
    (hnds : (serverQuotes.map ServerQuote.id).Nodup) :
    (∀ s ∈ serverQuotes, ∀ t : Nat, s.lastModified = some t →
      storeGet localQuotes s.id = none →
      storeGet (syncWithServer localQuotes serverQuotes reg pushOk now).quotes s.id =
        some ⟨s.id, s.text, s.category, t, false⟩) ∧
    (syncWithServer localQuotes serverQuotes reg pushOk now).added =
      (serverQuotes.filter (fun s => !(storeGet localQuotes s.id).isSome)).length := by
  constructor
  · intro s hs t ht habs
    have hgetSM : mapGet (buildServerMap serverQuotes) s.id = some s := by
      rw [buildServerMap_nodup_eq serverQuotes hnds]
      exact mapGet_map_pair_nodup ServerQuote.id serverQuotes s hnds hs
    have hmemSM : (s.id, s) ∈ buildServerMap serverQuotes := by
      rw [buildServerMap_nodup_eq serverQuotes hnds]
      exact List.mem_map.mpr ⟨s, hs, rfl⟩
    have hLMnone : mapGet (buildLocalMap localQuotes) s.id = none :=
      (buildLocalMap_get_none_iff localQuotes s.id).mpr habs
    have haccnone : mapGet (mergeQuotes localQuotes serverQuotes now).localMap s.id =
        none := by
      rw [mergeQuotes]
      exact mergeFold_get_none _ _ _ _ hLMnone
    have hiNL : serverWinsRecord s.id s now ∈
        (mergeQuotes localQuotes serverQuotes now).newLocal := by
      rw [mergeQuotes_newLocal]
      exact List.mem_filterMap.mpr ⟨(s.id, s), hmemSM, by simp [addedOf, hLMnone]⟩
    have hNLget : mapGet ((mergeQuotes localQuotes serverQuotes now).newLocal.map
        (fun i => (i.id, i))) s.id = some (serverWinsRecord s.id s now) :=
      mapGet_map_pair_nodup LocalQuote.id _ (serverWinsRecord s.id s now)
        (mergeQuotes_newLocal_nodup localQuotes serverQuotes now) hiNL
    have hstore : storeGet (mergedStore localQuotes serverQuotes now) s.id =
        some (serverWinsRecord s.id s now) := by
      rw [mergedStore_get_of_none _ _ _ _ haccnone]
      exact hNLget
    rw [sync_storeGet, hstore]
    have hswf : serverWinsRecord s.id s now =
        (⟨s.id, s.text, s.category, t, false⟩ : LocalQuote) := by
      simp [serverWinsRecord, ht]
    rw [hswf]
    simp [isPushCandidate, hgetSM]
  · rw [syncWithServer_added, mergeQuotes_newLocal,
      buildServerMap_nodup_eq serverQuotes hnds, List.filterMap_map,
      length_filterMap_eq_filter]
    have hcong : ∀ s ∈ serverQuotes,
        (((addedOf (buildLocalMap localQuotes) now) ∘ (fun s' => (s'.id, s'))) s).isSome =
          !(storeGet localQuotes s.id).isSome := by
      intro s hs
      cases hm : mapGet (buildLocalMap localQuotes) s.id with
      | none =>
          have := (buildLocalMap_get_none_iff localQuotes s.id).mp hm
          simp [addedOf, hm, this]
      | some v =>
          cases hst : storeGet localQuotes s.id with
          | none =>
              have := (buildLocalMap_get_none_iff localQuotes s.id).mpr hst
              rw [hm] at this
              exact Option.noConfusion this
          | some q => simp [addedOf, hm, hst]
    rw [List.filter_congr hcong]

/-- Witness for C7: the spec's scenario — empty local store, two-record
remote — both records stored with `pendingSync = false` and an added
count of 2. -/
theorem server_only_added_witness :
    storeGet (syncWithServer [] [⟨"1", "A", "M", some 10⟩, ⟨"2", "B", "N", some 20⟩]
        [] (fun _ => true) 0).quotes "1" = some ⟨"1", "A", "M", 10, false⟩ ∧
    storeGet (syncWithServer [] [⟨"1", "A", "M", some 10⟩, ⟨"2", "B", "N", some 20⟩]
        [] (fun _ => true) 0).quotes "2" = some ⟨"2", "B", "N", 20, false⟩ ∧
    (syncWithServer [] [⟨"1", "A", "M", some 10⟩, ⟨"2", "B", "N", some 20⟩]
        [] (fun _ => true) 0).added = 2 :=
  ⟨(server_only_added [] [⟨"1", "A", "M", some 10⟩, ⟨"2", "B", "N", some 20⟩] []
      (fun _ => true) 0 (by decide)).1 ⟨"1", "A", "M", some 10⟩ (by decide) 10 rfl rfl,
   (server_only_added [] [⟨"1", "A", "M", some 10⟩, ⟨"2", "B", "N", some 20⟩] []
      (fun _ => true) 0 (by decide)).1 ⟨"2", "B", "N", some 20⟩ (by decide) 20 rfl rfl,
   ((server_only_added [] [⟨"1", "A", "M", some 10⟩, ⟨"2", "B", "N", some 20⟩] []
      (fun _ => true) 0 (by decide)).2).trans (by decide)⟩

/-- Counterexample to C2 as stated: with the remote fetch failing
(`real = none`) the pass is not aborted and local state is not left
untouched — the pending record is pushed to the fallback simulated
server and its `pendingSync` flag is cleared. -/
theorem fetch_failure_state_changed_cx :
    (syncPass none [] [⟨"a", "T", "C", 5, true⟩] [] (fun _ => true) 0).1.quotes =
        [⟨"a", "T", "C", 5, false⟩] ∧
      (syncPass none [] [⟨"a", "T", "C", 5, true⟩] [] (fun _ => true) 0).1.quotes ≠
        [⟨"a", "T", "C", 5, true⟩] :=
  ⟨by decide, by decide⟩

/-- C2 (amended): a failed remote fetch does not abort the pass;
`fetchServerQuotes` falls back to the simulated server (seeded from the
local snapshot when its store is empty) and the merge and push phases
run against that snapshot: no conflict is detected, nothing is added,
and each record is unchanged except that pending records are pushed and
have `pendingSync` settled by the push outcome. -/
theorem fetch_failure_falls_back (localQuotes : List LocalQuote)
    (reg : List ConflictEntry) (pushOk : LocalQuote → Bool) (now : Nat)
    (hnd : (localQuotes.map LocalQuote.id).Nodup) :
    (fetchServerQuotes none localQuotes []).1 = localQuotes.map toServerQuote ∧
    (syncPass none [] localQuotes reg pushOk now).1.conflicts = [] ∧
    (syncPass none [] localQuotes reg pushOk now).1.added = 0 ∧
    (syncPass none [] localQuotes reg pushOk now).1.quotes =
      localQuotes.map (fun q =>
        if q.pendingSync then { q with pendingSync := !pushOk q } else q) := by
  have hndS : ((localQuotes.map toServerQuote).map ServerQuote.id).Nodup := by
    rw [List.map_map]
    exact hnd
  have hfold : mergeQuotes localQuotes (localQuotes.map toServerQuote) now =
      ⟨buildLocalMap localQuotes, [], []⟩ := by
    rw [mergeQuotes]
    apply mergeFold_id
    intro e he
    have he2 : e ∈ (localQuotes.map toServerQuote).map (fun s => (s.id, s)) :=
      mem_buildMap_sub _ _ he
    rw [List.map_map] at he2
    obtain ⟨q, hq, hqe⟩ := List.mem_map.mp he2
    subst hqe
    refine ⟨q, ?_, ?_⟩
    · show mapGet (buildLocalMap localQuotes) q.id = some q
      rw [buildLocalMap_nodup_eq localQuotes hnd]
      exact mapGet_map_pair_nodup LocalQuote.id localQuotes q hnd hq
    · show hasConflict q (toServerQuote q) now = false
      simp [hasConflict, toServerQuote]
  have hpass : (syncPass none [] localQuotes reg pushOk now).1 =
      syncWithServer localQuotes (localQuotes.map toServerQuote) reg pushOk now := rfl
  refine ⟨rfl, ?_, ?_, ?_⟩
  · rw [hpass, syncWithServer_conflicts, hfold]
  · rw [hpass, syncWithServer_added, hfold]
    rfl
  · rw [hpass, syncWithServer_quotes, applyPush_eq_map, mergedStore_eq, hfold]
    have hmerged : (MergeAcc.localMap ⟨buildLocalMap localQuotes, [], []⟩).map Prod.snd ++
        MergeAcc.newLocal ⟨buildLocalMap localQuotes, [], []⟩ = localQuotes := by
      show (buildLocalMap localQuotes).map Prod.snd ++ [] = localQuotes
      rw [buildLocalMap_nodup_eq localQuotes hnd, values_map_pair_id, List.append_nil]
    rw [hmerged]
    apply List.map_congr_left
    intro q hq
    have hgetS : mapGet (buildServerMap (localQuotes.map toServerQuote)) q.id =
        some (toServerQuote q) := by
      rw [buildServerMap_nodup_eq _ hndS]
      exact mapGet_map_pair_nodup ServerQuote.id _ (toServerQuote q) hndS
        (List.mem_map.mpr ⟨q, hq, rfl⟩)
    by_cases hps : q.pendingSync <;> simp [isPushCandidate, hgetS, hps]

/-- Witness for the amended C2: one pending record, failed fetch, empty
simulated store — the pass runs against the seeded snapshot and only the
`pendingSync` flag changes. -/
theorem fetch_failure_falls_back_witness :
    (fetchServerQuotes none [⟨"a", "T", "C", 5, true⟩] []).1 =
        [⟨"a", "T", "C", some 5⟩] ∧
    (syncPass none [] [⟨"a", "T", "C", 5, true⟩] [] (fun _ => true) 0).1.conflicts = [] ∧
    (syncPass none [] [⟨"a", "T", "C", 5, true⟩] [] (fun _ => true) 0).1.added = 0 ∧
    (syncPass none [] [⟨"a", "T", "C", 5, true⟩] [] (fun _ => true) 0).1.quotes =
      [⟨"a", "T", "C", 5, false⟩] :=
  fetch_failure_falls_back [⟨"a", "T", "C", 5, true⟩] [] (fun _ => true) 0 (by decide)

/-- Counterexample to C8 as stated: a merge pass that detects no
divergence (local and remote agree) leaves a stale registry entry from
an earlier pass in place instead of removing it. -/
theorem registry_not_cleared_cx :
    (syncWithServer [⟨"z", "new", "c", 2, false⟩] [⟨"z", "new", "c", some 2⟩]
        [⟨"z", ⟨"z", "old", "c", 1, false⟩, ⟨"z", "new", "c", 2⟩⟩]
        (fun _ => true) 0).conflicts = [] ∧
      (syncWithServer [⟨"z", "new", "c", 2, false⟩] [⟨"z", "new", "c", some 2⟩]
          [⟨"z", ⟨"z", "old", "c", 1, false⟩, ⟨"z", "new", "c", 2⟩⟩]
          (fun _ => true) 0).registry =
        [⟨"z", ⟨"z", "old", "c", 1, false⟩, ⟨"z", "new", "c", 2⟩⟩] :=
  ⟨by decide, by decide⟩

/-- C8 (amended): a conflict entry is removed when a consumer resolves
it (accept-server always removes it; push-local removes it when the push
succeeds), and a later merge pass that detects at least one conflict
replaces the whole registry with its own conflict list; a pass that
detects no conflict leaves the registry unchanged, so entries from
earlier passes persist until resolved or superseded. -/
theorem registry_lifecycle (quotes : List LocalQuote) (pending : List ConflictEntry)
    (conf : ConflictEntry) (pushOkR : LocalQuote → Bool) (nowR : Nat)
    (localQuotes : List LocalQuote) (serverQuotes : List ServerQuote)
    (reg : List ConflictEntry) (pushOk : LocalQuote → Bool) (now : Nat) :
    (∀ c ∈ (resolveAcceptServer quotes pending conf).2, c.id ≠ conf.id) ∧
    (∀ q : LocalQuote, quotes.find? (fun q' => q'.id == conf.id) = some q →
      pushOkR { q with lastModified := nowR } = true →
      ∀ c ∈ (resolveKeepLocal quotes pending conf pushOkR nowR).2, c.id ≠ conf.id) ∧
    ((syncWithServer localQuotes serverQuotes reg pushOk now).conflicts ≠ [] →
      (syncWithServer localQuotes serverQuotes reg pushOk now).registry =
        (syncWithServer localQuotes serverQuotes reg pushOk now).conflicts) ∧
    ((syncWithServer localQuotes serverQuotes reg pushOk now).conflicts = [] →
      (syncWithServer localQuotes serverQuotes reg pushOk now).registry = reg) := by
  refine ⟨?_, ?_, ?_, ?_⟩
  · intro c hc
    simp only [resolveAcceptServer] at hc
    have := (List.mem_filter.mp hc).2
    simpa using this
  · intro q hfind hok c hc
    simp only [resolveKeepLocal, hfind, hok, if_true] at hc
    have := (List.mem_filter.mp hc).2
    simpa using this
  · intro h
    rw [syncWithServer_conflicts] at h
    rw [syncWithServer_registry, syncWithServer_conflicts,
      if_pos (List.length_pos.mpr h)]
  · intro h
    rw [syncWithServer_conflicts] at h
    rw [syncWithServer_registry, h]
    simp

/-- Witness for the amended C8: both resolution paths remove the
resolved id from the registry; a conflicting pass overwrites the
registry with its own conflicts; a conflict-free pass keeps the old
registry. -/
theorem registry_lifecycle_witness :
    (⟨"w", ⟨"w", "l", "c", 1, false⟩, ⟨"w", "s", "c", 2⟩⟩ : ConflictEntry).id ≠ "z" ∧
    (⟨"w", ⟨"w", "l", "c", 1, false⟩, ⟨"w", "s", "c", 2⟩⟩ : ConflictEntry).id ≠ "z" ∧
    (syncWithServer [⟨"a", "X", "M", 100, false⟩] [⟨"a", "Y", "N", some 200⟩]
        [⟨"w", ⟨"w", "l", "c", 1, false⟩, ⟨"w", "s", "c", 2⟩⟩]
        (fun _ => true) 0).registry =
      (syncWithServer [⟨"a", "X", "M", 100, false⟩] [⟨"a", "Y", "N", some 200⟩]
        [⟨"w", ⟨"w", "l", "c", 1, false⟩, ⟨"w", "s", "c", 2⟩⟩]
        (fun _ => true) 0).conflicts ∧
    (syncWithServer [] [] [⟨"w", ⟨"w", "l", "c", 1, false⟩, ⟨"w", "s", "c", 2⟩⟩]
        (fun _ => true) 0).registry =
      [⟨"w", ⟨"w", "l", "c", 1, false⟩, ⟨"w", "s", "c", 2⟩⟩] := by
  refine ⟨?_, ?_, ?_, ?_⟩
  · exact (registry_lifecycle [⟨"z", "old", "c", 1, true⟩]
      [⟨"z", ⟨"z", "old", "c", 1, true⟩, ⟨"z", "srv", "c", 2⟩⟩,
       ⟨"w", ⟨"w", "l", "c", 1, false⟩, ⟨"w", "s", "c", 2⟩⟩]
      ⟨"z", ⟨"z", "old", "c", 1, true⟩, ⟨"z", "srv", "c", 2⟩⟩ (fun _ => true) 7
      [] [] [] (fun _ => true) 0).1
      ⟨"w", ⟨"w", "l", "c", 1, false⟩, ⟨"w", "s", "c", 2⟩⟩ (by decide)
  · exact (registry_lifecycle [⟨"z", "old", "c", 1, true⟩]
      [⟨"z", ⟨"z", "old", "c", 1, true⟩, ⟨"z", "srv", "c", 2⟩⟩,
       ⟨"w", ⟨"w", "l", "c", 1, false⟩, ⟨"w", "s", "c", 2⟩⟩]
      ⟨"z", ⟨"z", "old", "c", 1, true⟩, ⟨"z", "srv", "c", 2⟩⟩ (fun _ => true) 7
      [] [] [] (fun _ => true) 0).2.1
      ⟨"z", "old", "c", 1, true⟩ (by decide) rfl
      ⟨"w", ⟨"w", "l", "c", 1, false⟩, ⟨"w", "s", "c", 2⟩⟩ (by decide)
  · exact (registry_lifecycle [] [] ⟨"z", ⟨"z", "old", "c", 1, true⟩, ⟨"z", "srv", "c", 2⟩⟩
      (fun _ => true) 0 [⟨"a", "X", "M", 100, false⟩] [⟨"a", "Y", "N", some 200⟩]
      [⟨"w", ⟨"w", "l", "c", 1, false⟩, ⟨"w", "s", "c", 2⟩⟩]
      (fun _ => true) 0).2.2.1 (by decide)
  · exact (registry_lifecycle [] [] ⟨"z", ⟨"z", "old", "c", 1, true⟩, ⟨"z", "srv", "c", 2⟩⟩
      (fun _ => true) 0 [] [] [⟨"w", ⟨"w", "l", "c", 1, false⟩, ⟨"w", "s", "c", 2⟩⟩]
      (fun _ => true) 0).2.2.2 rfl

/-! ### Idempotence machinery -/

theorem pushApply_text (p : LocalQuote → Bool) (sm : List (String × ServerQuote))
    (q : LocalQuote) :
    (if isPushCandidate sm q then { q with pendingSync := !p q } else q).text =
      q.text := by
  by_cases h : isPushCandidate sm q <;> simp [h]

theorem pushApply_lastModified (p : LocalQuote → Bool)
    (sm : List (String × ServerQuote)) (q : LocalQuote) :
    (if isPushCandidate sm q then { q with pendingSync := !p q } else q).lastModified =
      q.lastModified := by
  by_cases h : isPushCandidate sm q <;> simp [h]

/-- After one pass, every id of the server map is stored with a record
that either carries the server timestamp or the server text (the
invariant that makes the next pass conflict-free). -/
theorem sync_covers_server (localQuotes : List LocalQuote)
    (serverQuotes : List ServerQuote) (reg : List ConflictEntry)
    (pushOk : LocalQuote → Bool) (now : Nat) (k : String) (s : ServerQuote)
    (hmem : (k, s) ∈ buildServerMap serverQuotes) :
    ∃ r, storeGet (syncWithServer localQuotes serverQuotes reg pushOk now).quotes k =
      some r ∧ (r.lastModified = s.lastModified.getD now ∨ r.text = s.text) := by
  have hndSM : (mapKeys (buildServerMap serverQuotes)).Nodup := by
    rw [buildServerMap]
    exact nodup_mapKeys_buildMap _
  rw [sync_storeGet]
  cases hget : mapGet (buildLocalMap localQuotes) k with
  | some l =>
      have hacc : mapGet (mergeQuotes localQuotes serverQuotes now).localMap k =
          some (if hasConflict l s now then serverWinsRecord k s now else l) := by
        rw [mergeQuotes]
        exact mergeFold_get_some _ _ _ _ _ _ hndSM hmem hget
      have hstore := mergedStore_get_of_localMap localQuotes serverQuotes now k _ hacc
      rw [hstore]
      refine ⟨_, rfl, ?_⟩
      simp only []
      cases hc : hasConflict l s now with
      | true =>
          right
          rw [pushApply_text]
          simp [hc, serverWinsRecord]
      | false =>
          have hor : l.lastModified = s.lastModified.getD now ∨ l.text = s.text := by
            rw [hasConflict] at hc
            rcases Bool.and_eq_false_iff.mp hc with h1 | h1
            · left; simpa using h1
            · right; simpa using h1
          rw [pushApply_text, pushApply_lastModified]
          simpa [hc] using hor
  | none =>
      have haccnone : mapGet (mergeQuotes localQuotes serverQuotes now).localMap k =
          none := by
        rw [mergeQuotes]
        exact mergeFold_get_none _ _ _ _ hget
      have hiNL : serverWinsRecord k s now ∈
          (mergeQuotes localQuotes serverQuotes now).newLocal := by
        rw [mergeQuotes_newLocal]
        exact List.mem_filterMap.mpr ⟨(k, s), hmem, by simp [addedOf, hget]⟩
      have hNLget : mapGet ((mergeQuotes localQuotes serverQuotes now).newLocal.map
          (fun i => (i.id, i))) k = some (serverWinsRecord k s now) :=
        mapGet_map_pair_nodup LocalQuote.id _ (serverWinsRecord k s now)
          (mergeQuotes_newLocal_nodup localQuotes serverQuotes now) hiNL
      have hstore : storeGet (mergedStore localQuotes serverQuotes now) k =
          some (serverWinsRecord k s now) := by
        rw [mergedStore_get_of_none _ _ _ _ haccnone]
        exact hNLget
      rw [hstore]
      refine ⟨_, rfl, ?_⟩
      simp only []
      right
      rw [pushApply_text]
      simp [serverWinsRecord]

/-- A pass over a store that already covers every server id (same
timestamp or same text) is a no-op merge: no conflicts, no additions,
local map untouched. -/
theorem sync_second_pass_id (q1 : List LocalQuote) (serverQuotes : List ServerQuote)
    (now₂ : Nat) (hnd : (q1.map LocalQuote.id).Nodup)
    (hcov : ∀ (k : String) (s : ServerQuote), (k, s) ∈ buildServerMap serverQuotes →
      ∃ r, storeGet q1 k = some r ∧
        (r.lastModified = s.lastModified.getD now₂ ∨ r.text = s.text)) :
    mergeQuotes q1 serverQuotes now₂ = ⟨buildLocalMap q1, [], []⟩ := by
  rw [mergeQuotes]
  apply mergeFold_id
  intro e he
  obtain ⟨r, hr, hor⟩ := hcov e.1 e.2 he
  refine ⟨r, ?_, ?_⟩
  · show mapGet (buildLocalMap q1) e.1 = some r
    rw [buildLocalMap_nodup_eq q1 hnd]
    exact hr
  · rcases hor with h | h
    · simp [hasConflict, h]
    · simp [hasConflict, h]

/-- C5: reconciling twice in a row against the same unchanged remote
snapshot (every remote record carrying a `lastModified`) with no local
edits in between detects no conflict on the second pass, leaves every
record's id and `lastModified` exactly as after the first pass, and
leaves the registry as the first pass left it. -/
theorem sync_idempotent (localQuotes : List LocalQuote)
    (serverQuotes : List ServerQuote) (reg : List ConflictEntry)
    (pushOk₁ pushOk₂ : LocalQuote → Bool) (now₁ now₂ : Nat)
    (hlm : ∀ s ∈ serverQuotes, (s.lastModified).isSome = true) :
    (syncWithServer (syncWithServer localQuotes serverQuotes reg pushOk₁ now₁).quotes
        serverQuotes (syncWithServer localQuotes serverQuotes reg pushOk₁ now₁).registry
        pushOk₂ now₂).conflicts = [] ∧
    (syncWithServer (syncWithServer localQuotes serverQuotes reg pushOk₁ now₁).quotes
        serverQuotes (syncWithServer localQuotes serverQuotes reg pushOk₁ now₁).registry
        pushOk₂ now₂).quotes.map (fun q => (q.id, q.lastModified)) =
      (syncWithServer localQuotes serverQuotes reg pushOk₁ now₁).quotes.map
        (fun q => (q.id, q.lastModified)) ∧
    (syncWithServer (syncWithServer localQuotes serverQuotes reg pushOk₁ now₁).quotes
        serverQuotes (syncWithServer localQuotes serverQuotes reg pushOk₁ now₁).registry
        pushOk₂ now₂).registry =
      (syncWithServer localQuotes serverQuotes reg pushOk₁ now₁).registry := by
  have hq1nd := sync_quotes_ids_nodup localQuotes serverQuotes reg pushOk₁ now₁
  have hcov : ∀ (k : String) (s : ServerQuote), (k, s) ∈ buildServerMap serverQuotes →
      ∃ r, storeGet (syncWithServer localQuotes serverQuotes reg pushOk₁ now₁).quotes k =
        some r ∧ (r.lastModified = s.lastModified.getD now₂ ∨ r.text = s.text) := by
    intro k s hmem
    obtain ⟨r, hr, hor⟩ := sync_covers_server localQuotes serverQuotes reg pushOk₁ now₁
      k s hmem
    refine ⟨r, hr, ?_⟩
    have hsmem : s ∈ serverQuotes := by
      have hsub := mem_buildMap_sub _ _ hmem
      obtain ⟨s', hs', heq⟩ := List.mem_map.mp hsub
      have hss : s' = s := congrArg Prod.snd heq
      exact hss ▸ hs'
    obtain ⟨t, ht⟩ := Option.isSome_iff_exists.mp (hlm s hsmem)
    rw [ht] at hor ⊢
    simpa using hor
  have hid2 := sync_second_pass_id
    (syncWithServer localQuotes serverQuotes reg pushOk₁ now₁).quotes
    serverQuotes now₂ hq1nd hcov
  refine ⟨?_, ?_, ?_⟩
  · rw [syncWithServer_conflicts, hid2]
  · rw [syncWithServer_quotes, applyPush_eq_map, mergedStore_eq, hid2]
    have hmerged : (MergeAcc.localMap
          ⟨buildLocalMap (syncWithServer localQuotes serverQuotes reg pushOk₁ now₁).quotes,
            [], []⟩).map Prod.snd ++
        MergeAcc.newLocal
          ⟨buildLocalMap (syncWithServer localQuotes serverQuotes reg pushOk₁ now₁).quotes,
            [], []⟩ =
        (syncWithServer localQuotes serverQuotes reg pushOk₁ now₁).quotes := by
      show (buildLocalMap
          (syncWithServer localQuotes serverQuotes reg pushOk₁ now₁).quotes).map
            Prod.snd ++ [] =
        (syncWithServer localQuotes serverQuotes reg pushOk₁ now₁).quotes
      rw [buildLocalMap_nodup_eq _ hq1nd, values_map_pair_id, List.append_nil]
    rw [hmerged, List.map_map]
    apply List.map_congr_left
    intro q hq
    show ((fun x => (x.id, x.lastModified))
        (if isPushCandidate (buildServerMap serverQuotes) q then
          { q with pendingSync := !pushOk₂ q } else q)) = (q.id, q.lastModified)
    by_cases hc : isPushCandidate (buildServerMap serverQuotes) q <;> simp [hc]
  · rw [syncWithServer_registry, hid2]
    simp

/-- Witness for C5: a conflicting first pass, then a second pass against
the identical remote snapshot — no new conflicts, identical ids and
timestamps, registry untouched. -/
theorem sync_idempotent_witness :
    (syncWithServer (syncWithServer [⟨"a", "X", "M", 100, false⟩]
        [⟨"a", "Y", "N", some 200⟩] [] (fun _ => true) 0).quotes
        [⟨"a", "Y", "N", some 200⟩]
        (syncWithServer [⟨"a", "X", "M", 100, false⟩] [⟨"a", "Y", "N", some 200⟩]
          [] (fun _ => true) 0).registry
        (fun _ => true) 9).conflicts = [] ∧
    (syncWithServer (syncWithServer [⟨"a", "X", "M", 100, false⟩]
        [⟨"a", "Y", "N", some 200⟩] [] (fun _ => true) 0).quotes
        [⟨"a", "Y", "N", some 200⟩]
        (syncWithServer [⟨"a", "X", "M", 100, false⟩] [⟨"a", "Y", "N", some 200⟩]
          [] (fun _ => true) 0).registry
        (fun _ => true) 9).quotes.map (fun q => (q.id, q.lastModified)) =
      (syncWithServer [⟨"a", "X", "M", 100, false⟩] [⟨"a", "Y", "N", some 200⟩]
        [] (fun _ => true) 0).quotes.map (fun q => (q.id, q.lastModified)) ∧
    (syncWithServer (syncWithServer [⟨"a", "X", "M", 100, false⟩]
        [⟨"a", "Y", "N", some 200⟩] [] (fun _ => true) 0).quotes
        [⟨"a", "Y", "N", some 200⟩]
        (syncWithServer [⟨"a", "X", "M", 100, false⟩] [⟨"a", "Y", "N", some 200⟩]
          [] (fun _ => true) 0).registry
        (fun _ => true) 9).registry =
      (syncWithServer [⟨"a", "X", "M", 100, false⟩] [⟨"a", "Y", "N", some 200⟩]
        [] (fun _ => true) 0).registry :=
  sync_idempotent [⟨"a", "X", "M", 100, false⟩] [⟨"a", "Y", "N", some 200⟩] []
    (fun _ => true) (fun _ => true) 0 9 (by decide)
end QuoteSync
